import Mathlib

/-!
Verification of the serial-OCR extraction pipeline
(`app/pipeline/ocr_adapter.py`, `app/pipeline/ocr_adapter_improved.py`,
`app/pipeline/tesseract_adapter.py`, `app/utils/validation.py`).

Python strings are modelled as lists of Unicode code points (`List Nat`);
the ASCII fragments of `str.upper`, `str.strip`, `str.isalnum` are embedded
directly, which is faithful for every character the recognition engines can
emit (their allowlists are restricted to `A`-`Z0-9` plus whitespace).
Floating-point confidences are modelled as rationals.
-/

/- Core marks rational arithmetic `@[irreducible]`, which blocks `decide`'s
evaluation of concrete witnesses (the kernel itself always unfolds these
definitions, so proof checking is unaffected). -/
set_option allowUnsafeReducibility true

attribute [local semireducible] Rat.add Rat.mul Rat.inv Rat.sub Rat.neg Rat.div Rat.blt

namespace SerialOCR

/-- A Python string as a list of code points. -/
abbrev Str := List Nat

/-- Code point of a character (used to write the tables legibly). -/
def ord (c : Char) : Nat := c.toNat

/-- Encode a Lean list of characters as a modelled Python string. -/
def codes (l : List Char) : Str := l.map Char.toNat

/-- ASCII whitespace, as recognised by Python's `str.strip()`. -/
def isSpaceCh (c : Nat) : Bool := c = 32 || (9 ≤ c && c ≤ 13)

/-- `str.upper` on a single ASCII character: lowercase letters are shifted
to uppercase, everything else is unchanged. -/
def upperChar (c : Nat) : Nat := if 97 ≤ c ∧ c ≤ 122 then c - 32 else c

/-- `str.isalnum` restricted to ASCII: letters and digits. -/
def isAlnumCh (c : Nat) : Bool :=
  (65 ≤ c && c ≤ 90) || (97 ≤ c && c ≤ 122) || (48 ≤ c && c ≤ 57)

/-- A character matched by the `[A-Z0-9]` character class. -/
def isSerialChar (c : Nat) : Bool := (65 ≤ c && c ≤ 90) || (48 ≤ c && c ≤ 57)

/-- `str.strip()`: drop whitespace from both ends. -/
def pyStrip (s : Str) : Str :=
  ((s.dropWhile isSpaceCh).reverse.dropWhile isSpaceCh).reverse

/-- `str.upper()` (ASCII model). -/
def pyUpper (s : Str) : Str := s.map upperChar

/-- `text[:idx] + rep + text[idx+1:]`, the single-position substitution used
by ambiguity expansion. -/
def subst (v : Str) (idx : Nat) (rep : Nat) : Str :=
  v.take idx ++ [rep] ++ v.drop (idx + 1)

/-! ### `app/utils/validation.py` -/

/-- `_BASIC_PATTERN = re.compile(r"^[A-Z0-9]{12}$")` applied to a string. -/
def basicPatternMatch (s : Str) : Bool := s.length = 12 && s.all isSerialChar

/-- `is_valid_apple_serial` (`app/utils/validation.py:119`), default
`strict=False` path as used by the pipeline: empty strings are rejected,
otherwise `text.strip().upper()` must match `^[A-Z0-9]{12}$`. -/
def is_valid_apple_serial (text : Str) : Bool :=
  if text = [] then false
  else basicPatternMatch (pyUpper (pyStrip text))

/-! ### Character-ambiguity tables -/

/-- `_AMBIGUOUS_MAP` of `ocr_adapter.py` (8 entries). -/
def AMBIGUOUS_MAP (c : Nat) : Option Nat :=
  if c = ord 'O' then some (ord '0')
  else if c = ord 'I' then some (ord '1')
  else if c = ord 'L' then some (ord '1')
  else if c = ord 'Z' then some (ord '2')
  else if c = ord 'S' then some (ord '5')
  else if c = ord 'B' then some (ord '8')
  else if c = ord 'Q' then some (ord '0')
  else if c = ord 'G' then some (ord '6')
  else none

/-- `_AMBIGUOUS_MAP` of `ocr_adapter_improved.py`: the 8 entries above plus
`D -> 0` and `T -> 7`. -/
def AMBIGUOUS_MAP_improved (c : Nat) : Option Nat :=
  if c = ord 'D' then some (ord '0')
  else if c = ord 'T' then some (ord '7')
  else AMBIGUOUS_MAP c

/-- `_POSITION_RULES` of `ocr_adapter_improved.py` (lines 319-357) as the
dictionary actually built by Python: the literal repeats the keys
`O`, `I`, `L`, `Z`, `S`, `B`, so their later `{3,4}` entries replace the
earlier `{8,9,10,11}` entries. -/
def POSITION_RULES (c : Nat) (i : Nat) : Option Nat :=
  if c = ord '0' then (if i ≤ 2 then some (ord 'O') else none)
  else if c = ord '1' then (if i ≤ 2 then some (ord 'I') else none)
  else if c = ord '2' then (if i ≤ 2 then some (ord 'Z') else none)
  else if c = ord '5' then (if i ≤ 2 then some (ord 'S') else none)
  else if c = ord '8' then (if i ≤ 2 then some (ord 'B') else none)
  else if c = ord 'O' then (if i = 3 ∨ i = 4 then some (ord '0') else none)
  else if c = ord 'I' then (if i = 3 ∨ i = 4 then some (ord '1') else none)
  else if c = ord 'L' then (if i = 3 ∨ i = 4 then some (ord '1') else none)
  else if c = ord 'Z' then (if i = 3 ∨ i = 4 then some (ord '2') else none)
  else if c = ord 'S' then (if i = 3 ∨ i = 4 then some (ord '5') else none)
  else if c = ord 'B' then (if i = 3 ∨ i = 4 then some (ord '8') else none)
  else if c = ord 'Q' then (if 8 ≤ i ∧ i ≤ 11 then some (ord '0') else none)
  else if c = ord 'G' then (if 8 ≤ i ∧ i ≤ 11 then some (ord '6') else none)
  else if c = ord 'D' then (if 8 ≤ i ∧ i ≤ 11 then some (ord '0') else none)
  else if c = ord 'T' then (if 8 ≤ i ∧ i ≤ 11 then some (ord '7') else none)
  else if c = ord 'E' then (if i = 5 ∨ i = 6 ∨ i = 7 then some (ord 'F') else none)
  else if c = ord 'J' then (if i = 5 ∨ i = 6 ∨ i = 7 then some (ord 'I') else none)
  else if c = ord 'C' then (if i = 0 then some (ord 'C') else none)
  else if c = ord 'Y' then (if i = 3 then some (ord 'Y') else none)
  else none

/-! ### Ambiguity expansion (`_expand_ambiguous`)

Python keeps the variants in a `set`; we keep them in a duplicate-free list
in insertion order (set iteration order is irrelevant to the properties
proved below, which are order-independent). -/

/-- `set.add`: append if not already present. -/
def insertAbsent (acc : List Str) (x : Str) : List Str :=
  if x ∈ acc then acc else acc ++ [x]

/-- One pass `for v in list(variants): variants.add(v[:idx] + rep + v[idx+1:])`:
iterate a snapshot `orig`, accumulating into the live set `acc`. -/
def expandPass (i : Nat) (rep : Nat) : List Str → List Str → List Str
  | [], acc => acc
  | v :: vs, acc => expandPass i rep vs (insertAbsent acc (subst v i rep))

/-- The position loop of `_expand_ambiguous` over the enumerated characters;
`skip i c = true` models the position-aware `continue` of the improved
variant (always false in the basic one). -/
def expandLoop (map : Nat → Option Nat) (skip : Nat → Nat → Bool) :
    List (Nat × Nat) → List Str → List Str
  | [], variants => variants
  | (i, ch) :: rest, variants =>
    if skip i ch then expandLoop map skip rest variants
    else
      match map ch with
      | some rep => expandLoop map skip rest (expandPass i rep variants variants)
      | none => expandLoop map skip rest variants

/-- `_expand_ambiguous` of `ocr_adapter.py` (lines 152-159). -/
def expand_ambiguous (text : Str) : List Str :=
  expandLoop AMBIGUOUS_MAP (fun _ _ => false) text.enum [text]

/-- `for i, ch in enumerate(s)`-style positional map, starting at index `i`. -/
def mapIdxFrom (f : Nat → Nat → Nat) : Nat → Str → Str
  | _, [] => []
  | i, c :: rest => f i c :: mapIdxFrom f (i + 1) rest

/-- The inner per-character rewrite of the position pass of the improved
`_expand_ambiguous`. -/
def applyPositionRules (v : Str) : Str :=
  mapIdxFrom (fun i c => (POSITION_RULES c i).getD c) 0 v

/-- The `position_variants` pass: for each variant, the position-rewritten
form is added when it differs from the variant. -/
def positionVariantsOf (variants : List Str) : List Str :=
  variants.foldl
    (fun acc v =>
      let pv := applyPositionRules v
      if pv ≠ v then insertAbsent acc pv else acc) []

/-- `_expand_ambiguous` of `ocr_adapter_improved.py` (lines 360-409). -/
def expand_ambiguous_improved (text : Str) (position_aware : Bool) : List Str :=
  let is12 := text.length = 12
  let skip : Nat → Nat → Bool := fun i c =>
    position_aware && is12 && (POSITION_RULES c i).isSome
  let variants := expandLoop AMBIGUOUS_MAP_improved skip text.enum [text]
  if position_aware && is12 then
    (positionVariantsOf variants).foldl insertAbsent variants
  else variants

/-! ### Normalisation (`_normalize_ambiguous`) -/

/-- `_normalize_ambiguous` of `ocr_adapter.py` (lines 162-164). -/
def normalize_ambiguous (text : Str) : Str :=
  (pyUpper (pyStrip text)).map (fun c => (AMBIGUOUS_MAP c).getD c)

/-- `_normalize_ambiguous` of `ocr_adapter_improved.py` (lines 412-438):
position-specific rules take precedence for 12-character strings when
`position_aware` is set. -/
def normalize_ambiguous_improved (text : Str) (position_aware : Bool) : Str :=
  let up := pyUpper (pyStrip text)
  mapIdxFrom (fun i c =>
    if position_aware ∧ up.length = 12 then
      match POSITION_RULES c i with
      | some r => r
      | none => (AMBIGUOUS_MAP_improved c).getD c
    else (AMBIGUOUS_MAP_improved c).getD c) 0 up

/-! ### The candidate resolver

`extract_serials` (lines 573-585 of `ocr_adapter.py`, 1344-1355 of
`ocr_adapter_improved.py`) aggregates raw `(serial, confidence)` hits by
normalised key in two insertion-ordered dictionaries (`score_by_norm`,
`best_variant_by_norm`); both are keyed identically and updated for every
hit, so they are modelled as a single association list of entries. -/

/-- A raw `(serial, confidence)` hit. -/
abbrev Hit := Str × ℚ

/-- One key of the aggregation dictionaries: accumulated score plus the
best surface form seen so far and its own confidence. -/
structure Entry where
  key : Str
  score : ℚ
  best : Str
  bestConf : ℚ
deriving DecidableEq

/-- Process one hit `(s, c)`:
`score_by_norm[n] = score_by_norm.get(n, 0.0) + c` and
`best_variant_by_norm[n] = (s, c)` when `n` is new or `c` is strictly
larger than the stored confidence. New keys are appended (dict insertion
order). -/
def addHit (norm : Str → Str) : List Entry → Hit → List Entry
  | [], (s, c) => [⟨norm s, c, s, c⟩]
  | e :: rest, (s, c) =>
    if e.key = norm s then
      { e with score := e.score + c,
               best := if e.bestConf < c then s else e.best,
               bestConf := if e.bestConf < c then c else e.bestConf } :: rest
    else e :: addHit norm rest (s, c)

/-- The aggregation loop over all hits. -/
def aggregate (norm : Str → Str) (hits : List Hit) : List Entry :=
  hits.foldl (addHit norm) []

/-- The pointwise update performed by `addHit` on the (unique) entry whose
key matches the new hit; used to characterise `addHit` on key-nodup
states. -/
def bumpEntry (norm : Str → Str) (s : Str) (c : ℚ) (e : Entry) : Entry :=
  if e.key = norm s then
    { e with score := e.score + c,
             best := if e.bestConf < c then s else e.best,
             bestConf := if e.bestConf < c then c else e.bestConf }
  else e

/-- The comparison used by `sorted(..., key=lambda kv: kv[1], reverse=True)`
on entries: `a` may precede `b` iff `a`'s aggregate score is at least
`b`'s. Inserting with this (non-strict) relation keeps insertion order on
ties, which is exactly the stability guarantee of Python's `sorted`. -/
def scoreGe (a b : Entry) : Prop := b.score ≤ a.score

instance : DecidableRel scoreGe := fun a b => inferInstanceAs (Decidable (b.score ≤ a.score))

instance : IsTotal Entry scoreGe := ⟨fun a b => le_total b.score a.score⟩

instance : IsTrans Entry scoreGe := ⟨fun _ _ _ h1 h2 => le_trans h2 h1⟩

/-- `ordered_norms = sorted(score_by_norm.items(), key=..., reverse=True)`:
a stable sort of the entries by aggregate score, descending. -/
def rankedEntries (norm : Str → Str) (hits : List Hit) : List Entry :=
  (aggregate norm hits).insertionSort scoreGe

/-- The final `merged` list: for every key, in ranked order, the best
surface form together with that surface form's own confidence. -/
def resolve (norm : Str → Str) (hits : List Hit) : List Hit :=
  (rankedEntries norm hits).map (fun e => (e.best, e.bestConf))

/-- The resolver of `ocr_adapter.py` (`extract_serials` lines 573-585). -/
def resolve_base (hits : List Hit) : List Hit :=
  resolve normalize_ambiguous hits

/-- The resolver of `ocr_adapter_improved.py` (`extract_serials` lines
1344-1355, which normalises with `position_aware=True`). -/
def resolve_improved (hits : List Hit) : List Hit :=
  resolve (fun s => normalize_ambiguous_improved s true) hits

/-- The keys of the resolver in first-seen order: a key is appended the
first time a hit normalising to it occurs. -/
def firstSeenKeys (norm : Str → Str) (hits : List Hit) : List Str :=
  hits.foldl (fun ks h => if norm h.1 ∈ ks then ks else ks ++ [norm h.1]) []

/-! ### Raw-hit production (`_read_serials_from_image`)

The recognition engine (`easyocr.Reader.readtext`) is an opaque external
collaborator; its raw outputs are the inputs of these functions. The
bounding box of each engine result is unused here. -/

/-- One raw engine result: recognised text and confidence. -/
structure RawResult where
  text : Str
  conf : ℚ
deriving DecidableEq

/-- `clean = "".flatten(c for c in text if c.isalnum()).upper()`. -/
def cleanText (t : Str) : Str := pyUpper (t.filter isAlnumCh)

/-- `_read_serials_from_image` of `ocr_adapter.py` (lines 250-272), given
the engine's raw results: keep results at or above `min_confidence`, clean
the text, drop strings shorter than 8, keep valid serials at full
confidence, otherwise the first valid ambiguity-expansion variant at 95%
confidence. -/
def read_serials_from_image (min_confidence : ℚ) : List RawResult → List Hit
  | [] => []
  | r :: rest =>
    let tail := read_serials_from_image min_confidence rest
    if r.conf < min_confidence then tail
    else
      let clean := cleanText r.text
      if clean.length < 8 then tail
      else if is_valid_apple_serial clean then (clean, r.conf) :: tail
      else
        match (expand_ambiguous clean).find? (fun v => is_valid_apple_serial v) with
        | some v => (v, r.conf * (95 / 100)) :: tail
        | none => tail

/-- `base = text.strip().upper().replace(" ", "")` of the improved reader. -/
def cleanTextImproved (t : Str) : Str :=
  (pyUpper (pyStrip t)).filter (fun c => c ≠ 32)

/-- `_read_serials_from_image` of `ocr_adapter_improved.py` (lines
702-710): every position-aware expansion variant that is a valid serial is
kept at the engine confidence, provided the confidence reaches
`min_confidence`. (The OOM downscale and the GPU-to-CPU retry affect only
which raw results the engine returns.) -/
def read_serials_from_image_improved (min_confidence : ℚ) : List RawResult → List Hit
  | [] => []
  | r :: rest =>
    let base := cleanTextImproved r.text
    ((expand_ambiguous_improved base true).filter
        (fun c => is_valid_apple_serial c && min_confidence ≤ r.conf)).map
      (fun c => (c, r.conf))
    ++ read_serials_from_image_improved min_confidence rest

/-! ### Images, collaborators and preprocessing

Pixel-level operations (OpenCV transforms, the neural recogniser, the
learned region detector, the classical OCR engine) are opaque external
collaborators: images are an abstract type `PImg` and every pixel-level
operation is a field of the `Collab` bundle, universally quantified in the
theorems. Repository-level control flow over them is embedded exactly. -/

/-- Raw request bytes. -/
abbrev Bytes := List Nat

/-- The error raised by `preprocess_image` when `cv2.imdecode` fails
(`raise ValueError("Invalid image data")`). -/
inductive DecodeError
  | invalidImageData
deriving DecidableEq

/-- `mode` parameter of `preprocess_image` ("binary" or "gray"). -/
inductive Mode
  | binary
  | gray
deriving DecidableEq

/-- `glare_reduction` strategies. -/
inductive GlareMethod
  | tophat
  | division
  | multi
  | adaptive
deriving DecidableEq

/-- Preprocessing parameters of `preprocess_image` (both files). -/
structure PreParams where
  clip_limit : ℚ := 2
  tile_grid : Nat := 8
  bilateral_d : Nat := 7
  thresh_block_size : Nat := 35
  thresh_C : Nat := 11
  morph_kernel : Nat := 2
  upscale_scale : ℚ := 2
  mode : Mode := Mode.binary
  glare_reduction : Option GlareMethod := none
  sharpen : Bool := true
deriving DecidableEq

/-- Parameters forwarded to the recognition engine
(`low_text`, `text_threshold`, `mag_ratio`). -/
structure EngineParams where
  low_text : ℚ := 3 / 10
  text_threshold : ℚ := 6 / 10
  magnification : ℚ := 1
deriving DecidableEq

/-- Parameters of `_find_rois_by_projection`. -/
structure ProjParams where
  top_k : Nat
  pad : Nat
  adaptive_pad : Bool
deriving DecidableEq

/-- The opaque external collaborators of the pipeline, bundled. `PImg` is
the abstract type of decoded/processed pixel grids. -/
structure Collab (PImg : Type) where
  /-- `cv2.imdecode`: `none` models an undecodable byte string. -/
  decode : Bytes → Option PImg
  /-- The deterministic enhancement chain of `preprocess_image` after a
  successful decode (grayscale, glare reduction, CLAHE, bilateral filter,
  optional sharpening, thresholding + morphology, upscaling): total on
  valid pixel grids. -/
  enhance : PreParams → PImg → PImg
  /-- `cv2.cvtColor(..., GRAY2RGB)` / passthrough. -/
  toRGB : PImg → PImg
  /-- `255 - processed`, converted to RGB. -/
  invertRGB : PImg → PImg
  /-- `_rotate_image` (integer angles, improved adapter). -/
  rotate : Int → PImg → PImg
  /-- `_rotate_image` (float angles, base adapter). -/
  rotateQ : ℚ → PImg → PImg
  /-- Horizontal band crop `img[y0:y1, :]`. -/
  cropBand : Nat × Nat → PImg → PImg
  /-- Box crop `img[y0:y1, x0:x1]`. -/
  cropBox : Nat × Nat × Nat × Nat → PImg → PImg
  /-- `_find_rois_by_projection`: the row-projection heuristic (numeric,
  returns the padded `(y0, y1)` bands). -/
  projBands : ProjParams → PImg → List (Nat × Nat)
  /-- `_keyword_guided_boxes`: keyword-anchored crop boxes `(y0,y1,x0,x1)`. -/
  kwBoxes : Bytes → Nat × Nat → List (Nat × Nat × Nat × Nat)
  /-- `img.shape[:2] = (h, w)`. -/
  shape : PImg → Nat × Nat
  /-- `_detect_text_orientation`: estimated orientation (0/90/180/270). -/
  detectOrient : PImg → Int
  /-- `reader.readtext(...)` with the alphanumeric allowlist; the
  GPU-to-CPU retry of the improved reader only changes which raw results
  come back (total: a doubly-failed call yields `[]`). -/
  engine : EngineParams → PImg → List RawResult
  /-- `detect_serial_regions` (YOLO): cropped regions, `[]` when the model
  is absent or detection raised (the caller catches exceptions). -/
  yoloDetect : Bytes → List PImg
  /-- `cv2.imencode(".png", crop)`. -/
  encodeCrop : PImg → Bytes
  /-- The `all_candidates` accumulated by `extract_serials_with_tesseract`
  from the `pytesseract` calls over all preprocessing variants and PSM
  modes (each already validated with `is_valid_apple_serial`). -/
  tessCandidates : PImg → List Hit

/-- `preprocess_image` (`ocr_adapter.py:105-108`,
`ocr_adapter_improved.py:227-230`): decode the bytes, raising the decode
error when `cv2.imdecode` returns `None`, then apply the (total)
enhancement chain. -/
def preprocess_image {PImg : Type} (C : Collab PImg) (image_bytes : Bytes)
    (p : PreParams) : Except DecodeError PImg :=
  match C.decode image_bytes with
  | none => Except.error DecodeError.invalidImageData
  | some img => Except.ok (C.enhance p img)

/-! ### Region selection -/

/-- A region to scan: the full processed frame, a horizontal band
`[y0:y1, :]`, or a box `[y0:y1, x0:x1]`. -/
inductive Region
  | fullFrame
  | band (y0 y1 : Nat)
  | box (y0 y1 x0 x1 : Nat)
deriving DecidableEq

/-- Region list of the base `extract_serials` (`ocr_adapter.py:492-528`):
ROI bands with full-frame fallback when the heuristic finds none;
otherwise keyword crops and zoom strips (the full frame is appended after
non-empty strips, and the `zoom_strips <= 1` branch reassigns the list to
the sole full frame). -/
def regions_to_scan_base (roi keyword_crop : Bool) (bands : List (Nat × Nat))
    (kw : List (Nat × Nat × Nat × Nat)) (zoom_strips h : Nat) : List Region :=
  if roi then
    let rs := bands.map (fun p => Region.band p.1 p.2)
    if rs = [] then [Region.fullFrame] else rs
  else
    let ks := if keyword_crop then kw.map (fun b => Region.box b.1 b.2.1 b.2.2.1 b.2.2.2) else []
    if 1 < zoom_strips then
      let strip_h := max 1 (h / zoom_strips)
      let strips := (List.range zoom_strips).filterMap (fun i =>
        let y0 := i * strip_h
        let y1 := if i = zoom_strips - 1 then h else min h (y0 + strip_h)
        if y1 - y0 < max 8 (h / 40) then none else some (Region.band y0 y1))
      let all := ks ++ strips
      if all = [] then [Region.fullFrame] else all ++ [Region.fullFrame]
    else [Region.fullFrame]

/-- Region list of the improved `extract_serials`
(`ocr_adapter_improved.py:1274-1285`): ROI bands with full-frame fallback,
else the full frame. -/
def regions_to_scan_improved (roi : Bool) (bands : List (Nat × Nat)) : List Region :=
  if roi then
    let rs := bands.map (fun p => Region.band p.1 p.2)
    if rs = [] then [Region.fullFrame] else rs
  else [Region.fullFrame]

/-- Crop one region out of the working image and its inverted-polarity
variant (`imgs_to_scan` / `inv_to_scan` are built in parallel). -/
def regionCrop {PImg : Type} (C : Collab PImg) (rgb rgbInv : PImg) :
    Region → PImg × PImg
  | Region.fullFrame => (rgb, rgbInv)
  | Region.band y0 y1 => (C.cropBand (y0, y1) rgb, C.cropBand (y0, y1) rgbInv)
  | Region.box y0 y1 x0 x1 =>
    (C.cropBox (y0, y1, x0, x1) rgb, C.cropBox (y0, y1, x0, x1) rgbInv)

/-! ### Rotation search spaces -/

/-- Angle list of the base `extract_serials`: the caller's rotations,
plus (when `fine_rotation`) ±15° and ±30° around each. -/
def base_scan_angles (try_rotations : List ℚ) (fine : Bool) : List ℚ :=
  try_rotations ++
    (if fine then
      (try_rotations.map (fun b => [b - 30, b - 15, b + 15, b + 30])).flatten
    else [])

/-- `sorted(list(set(xs)))`: the distinct angles in ascending order. -/
def sortedDedupInt (l : List Int) : List Int :=
  l.eraseDups.insertionSort (fun a b => a ≤ b)

/-- `_get_smart_rotation_angles` (`ocr_adapter_improved.py:510-563`) given
the detected primary orientation. -/
def get_smart_rotation_angles (primary : Int) (fine : Bool) : List Int :=
  let horiz : Bool := primary = 0 ∨ primary = 180
  let angles : List Int := if horiz then [0, 180] else [primary, (primary + 180) % 360]
  let secondary : List Int := if horiz then [90, 270] else [0, 180]
  let withFine :=
    if fine then
      angles ++ ((angles.take 2).map (fun a => [a - 15, a - 7, a + 7, a + 15])).flatten ++ secondary
    else angles ++ secondary
  sortedDedupInt withFine

/-- Rotation-angle selection of the improved `extract_serials`
(lines 1288-1304): smart rotation when no explicit set is given,
otherwise the given set (default all four orientations), with optional
fine angles, deduplicated and sorted. -/
def improved_rotation_angles (smart : Bool) (try_rotations : Option (List Int))
    (fine : Bool) (primary : Int) : List Int :=
  if smart ∧ try_rotations = none then get_smart_rotation_angles primary fine
  else
    let base := match try_rotations with
      | some l => l
      | none => [0, 90, 180, 270]
    if fine ∧ try_rotations ≠ none then
      sortedDedupInt (base ++ (base.map (fun a => [a - 15, a - 7, a + 7, a + 15])).flatten)
    else base

/-! ### The base pipeline entry point (`ocr_adapter.extract_serials`) -/

/-- Caller-facing parameters of the base `extract_serials`. -/
structure BaseParams where
  min_confidence : ℚ := 0
  try_rotations : List ℚ := [0, 90, 180, 270]
  low_text : ℚ := 3 / 10
  text_threshold : ℚ := 6 / 10
  roi : Bool := false
  roi_top_k : Nat := 3
  roi_pad : Nat := 8
  adaptive_pad : Bool := true
  magnification : ℚ := 1
  fine_rotation : Bool := false
  keyword_crop : Bool := false
  zoom_strips : Nat := 0
  pre : PreParams := {}
deriving DecidableEq

/-- `extract_serials` of `ocr_adapter.py` (lines 433-656): preprocess,
build the region list, scan every region at every angle in both
polarities, and resolve the accumulated hits. -/
def extract_serials_base {PImg : Type} (C : Collab PImg) (image_bytes : Bytes)
    (p : BaseParams) : Except DecodeError (List Hit) :=
  match preprocess_image C image_bytes p.pre with
  | Except.error e => Except.error e
  | Except.ok processed =>
    let rgb := C.toRGB processed
    let rgbInv := C.invertRGB processed
    let bands := C.projBands ⟨p.roi_top_k, p.roi_pad, p.adaptive_pad⟩ processed
    let hw := C.shape processed
    let kw := if p.keyword_crop then C.kwBoxes image_bytes hw else []
    let regs := regions_to_scan_base p.roi p.keyword_crop bands kw p.zoom_strips hw.1
    let angles := base_scan_angles p.try_rotations p.fine_rotation
    let ep : EngineParams := ⟨p.low_text, p.text_threshold, p.magnification⟩
    let hits := (regs.map (fun reg =>
      let pr := regionCrop C rgb rgbInv reg
      (angles.map (fun ang =>
        read_serials_from_image p.min_confidence (C.engine ep (C.rotateQ ang pr.1))
        ++ read_serials_from_image p.min_confidence (C.engine ep (C.rotateQ ang pr.2)))).flatten)).flatten
    Except.ok (resolve_base hits)

/-! ### The improved pipeline entry point with early stopping -/

/-- Caller-facing parameters of the improved `extract_serials`. -/
structure ImprovedParams where
  min_confidence : ℚ := 0
  early_stop_confidence : ℚ := 95 / 100
  enable_early_stop : Bool := true
  try_rotations : Option (List Int) := none
  smart_rotation : Bool := true
  fine_rotation : Bool := false
  low_text : ℚ := 3 / 10
  text_threshold : ℚ := 6 / 10
  roi : Bool := false
  roi_top_k : Nat := 2
  roi_pad : Nat := 8
  adaptive_pad : Bool := true
  magnification : ℚ := 1
  pre : PreParams := {}
deriving DecidableEq

/-- `max(results, key=lambda x: x[1])`: first maximal element. -/
def pyMaxBySnd : Hit → List Hit → Hit
  | b, [] => b
  | b, x :: rest => pyMaxBySnd (if b.2 < x.2 then x else b) rest

/-- The early-stop test applied after each recogniser call: when enabled
and the call produced hits whose best confidence reaches the threshold,
that best hit is returned alone. -/
def earlyHit (enable : Bool) (early : ℚ) : List Hit → Option Hit
  | [] => none
  | h :: t =>
    let best := pyMaxBySnd h t
    if enable ∧ early ≤ best.2 then some best else none

/-- The rotation loop over one region pair (normal image first, then the
inverted one), accumulating hits and early-stopping. -/
def scanAngles {PImg : Type} (C : Collab PImg) (ep : EngineParams)
    (minc early : ℚ) (enable : Bool) (r ri : PImg) :
    List Int → List Hit → (List Hit) ⊕ Hit
  | [], acc => Sum.inl acc
  | ang :: rest, acc =>
    let res := read_serials_from_image_improved minc (C.engine ep (C.rotate ang r))
    match earlyHit enable early res with
    | some best => Sum.inr best
    | none =>
      let resInv := read_serials_from_image_improved minc (C.engine ep (C.rotate ang ri))
      match earlyHit enable early resInv with
      | some best => Sum.inr best
      | none => scanAngles C ep minc early enable r ri rest (acc ++ res ++ resInv)

/-- The region loop of the improved `extract_serials`. -/
def scanRegions {PImg : Type} (C : Collab PImg) (ep : EngineParams)
    (minc early : ℚ) (enable : Bool) (angles : List Int) :
    List (PImg × PImg) → List Hit → (List Hit) ⊕ Hit
  | [], acc => Sum.inl acc
  | pr :: rest, acc =>
    match scanAngles C ep minc early enable pr.1 pr.2 angles acc with
    | Sum.inr best => Sum.inr best
    | Sum.inl acc' => scanRegions C ep minc early enable angles rest acc'

/-- `extract_serials` of `ocr_adapter_improved.py` (lines 1232-1357):
preprocess, pick regions and rotation angles, scan with early stopping,
and either return the single early hit or resolve the accumulated hits. -/
def extract_serials_improved {PImg : Type} (C : Collab PImg)
    (image_bytes : Bytes) (p : ImprovedParams) : Except DecodeError (List Hit) :=
  match preprocess_image C image_bytes p.pre with
  | Except.error e => Except.error e
  | Except.ok processed =>
    let rgb := C.toRGB processed
    let rgbInv := C.invertRGB processed
    let bands := C.projBands ⟨p.roi_top_k, p.roi_pad, p.adaptive_pad⟩ processed
    let regs := regions_to_scan_improved p.roi bands
    let pairs := regs.map (regionCrop C rgb rgbInv)
    let source := (pairs.headD (rgb, rgbInv)).1
    let angles := improved_rotation_angles p.smart_rotation p.try_rotations
      p.fine_rotation (C.detectOrient source)
    let ep : EngineParams := ⟨p.low_text, p.text_threshold, p.magnification⟩
    Except.ok
      (match scanRegions C ep p.min_confidence p.early_stop_confidence
          p.enable_early_stop angles pairs [] with
      | Sum.inr best => [best]
      | Sum.inl hits => resolve_improved hits)

/-! ### Hit lists sorted by confidence -/

/-- `sorted(..., key=lambda x: x[1], reverse=True)` on hits: `a` may
precede `b` iff `a`'s confidence is at least `b`'s (stable). -/
def hitGe (a b : Hit) : Prop := b.2 ≤ a.2

instance : DecidableRel hitGe := fun a b => inferInstanceAs (Decidable (b.2 ≤ a.2))

instance : IsTotal Hit hitGe := ⟨fun a b => le_total b.2 a.2⟩

instance : IsTrans Hit hitGe := ⟨fun _ _ _ h1 h2 => le_trans h2 h1⟩

/-- Stable descending sort of hits by confidence. -/
def sortHitsDesc (l : List Hit) : List Hit := l.insertionSort hitGe

/-! ### Tesseract fallback (`tesseract_adapter.py`) -/

/-- `if serial not in unique_results or conf > unique_results[serial]`:
keep the maximal confidence per serial, keys in first-seen order. -/
def tessAdd : List Hit → Hit → List Hit
  | [], h => [h]
  | (s, c) :: rest, h =>
    if s = h.1 then (if c < h.2 then (s, h.2) else (s, c)) :: rest
    else (s, c) :: tessAdd rest h

/-- `extract_serials_with_tesseract` (`tesseract_adapter.py:166-223`): when
Tesseract is unavailable the result is empty; otherwise the accumulated
candidates (already serial-validated, see `Collab.tessCandidates`) are
deduplicated by serial keeping the maximal confidence, then sorted by
confidence descending. -/
def extract_serials_with_tesseract (available : Bool) (all_candidates : List Hit) :
    List Hit :=
  if available then sortHitsDesc (all_candidates.foldl tessAdd []) else []

/-! ### Merge and deduplication across stages -/

/-- One step of `_merge_and_deduplicate_results`: a repeated serial gets
`max(old, new) + 0.05`, a new serial is appended with its confidence. -/
def mergeAdd : List Hit → Hit → List Hit
  | [], h => [h]
  | (s, c) :: rest, h =>
    if s = h.1 then (s, max c h.2 + 1 / 20) :: rest
    else (s, c) :: mergeAdd rest h

/-- `_merge_and_deduplicate_results` (`ocr_adapter_improved.py:1196-1229`):
group by serial with the confidence boost, cap at 1.0, sort by confidence
descending. -/
def merge_and_deduplicate_results (results : List Hit) : List Hit :=
  if results = [] then []
  else sortHitsDesc ((results.foldl mergeAdd []).map (fun h => (h.1, min h.2 1)))

/-! ### The progressive controller (`progressive_process`)

`time.time()` is opaque: `elapsed k` is the elapsed wall-clock time
observed by the `k`-th timeout check, in source order. Each stage either
raises a decode error, returns an answer (candidate list), or passes the
accumulated state on. The state additionally records, as `trace`, the
candidate list produced by every individual recogniser-stage invocation,
so that the controller's return-value invariants can be stated. -/

/-- Fallback strategies of `progressive_process`. -/
inductive FallbackStrategy
  | easyocr_only
  | tesseract_only
  | hybrid
deriving DecidableEq

/-- Caller-facing parameters of `progressive_process`. -/
structure ProgParams where
  min_confidence : ℚ := 0
  early_stop_confidence : ℚ := 95 / 100
  max_processing_time : ℚ := 30
  use_tesseract_fallback : Bool := true
  use_yolo_roi : Bool := true
  try_invert : Bool := true
  try_multi_scale : Bool := true
  production_mode : Bool := false
  fallback_strategy : FallbackStrategy := FallbackStrategy.hybrid
  /-- The module-level `TESSERACT_AVAILABLE` flag. -/
  tesseract_available : Bool := true
deriving DecidableEq

/-- Controller state: `all` is `all_results`, `trace` the candidate list of
each completed stage invocation (ghost instrumentation for the stated
invariants), `tIdx` the number of timeout checks made so far. -/
structure PState where
  all : List Hit
  trace : List (List Hit)
  tIdx : Nat
deriving DecidableEq

/-- `all_results.extend(stage_results)` plus trace recording. -/
def addStage (st : PState) (l : List Hit) : PState :=
  ⟨st.all ++ l, st.trace ++ [l], st.tIdx⟩

/-- Advance past one timeout check. -/
def bumpT (st : PState) : PState := ⟨st.all, st.trace, st.tIdx + 1⟩

/-- The controller's final answer: the returned candidate list plus the
ghost trace of per-invocation lists. -/
abbrev Answer := List Hit × List (List Hit)

/-- `lst and lst[0][1] >= thr`. -/
def headHigh (thr : ℚ) : List Hit → Bool
  | [] => false
  | (_, c) :: _ => decide (thr ≤ c)

/-- Extraction preset used on each YOLO crop (`progressive_process`
lines 904-917). -/
def yoloCropParams (minc early : ℚ) : ImprovedParams :=
  { min_confidence := minc, early_stop_confidence := early,
    pre := { upscale_scale := 5 / 2, mode := Mode.gray,
             glare_reduction := some GlareMethod.adaptive } }

/-- Stage-1 preset (lines 931-944). -/
def stage1Params (minc early : ℚ) : ImprovedParams :=
  { min_confidence := minc, early_stop_confidence := early,
    pre := { upscale_scale := 2, mode := Mode.gray,
             glare_reduction := some GlareMethod.adaptive } }

/-- Stage-2 inverted-pass preset (lines 965-978). -/
def stage2InvParams (minc early : ℚ) : ImprovedParams :=
  { min_confidence := minc, early_stop_confidence := early,
    pre := { upscale_scale := 5 / 2, mode := Mode.gray,
             glare_reduction := some GlareMethod.multi } }

/-- Stage-2 enhanced preset (lines 989-1003). -/
def stage2EnhParams (minc early : ℚ) : ImprovedParams :=
  { min_confidence := minc, early_stop_confidence := early,
    pre := { upscale_scale := 3, mode := Mode.binary,
             glare_reduction := some GlareMethod.multi, sharpen := true } }

/-- Stage-3 full preset (lines 1022-1043), parameterised by the upscale
factor for the multi-scale pass. -/
def stage3Params (minc early scale : ℚ) : ImprovedParams :=
  { min_confidence := minc, early_stop_confidence := early,
    roi := true, roi_top_k := 3, roi_pad := 12, adaptive_pad := true,
    pre := { upscale_scale := scale, mode := Mode.binary,
             glare_reduction := some GlareMethod.multi, sharpen := true } }

/-- The three enhanced-EasyOCR fallback presets of stage 4 (lines
1113-1117). -/
def fallbackAttempts : List PreParams :=
  [{ mode := Mode.binary, glare_reduction := some GlareMethod.multi, upscale_scale := 4 },
   { mode := Mode.gray, glare_reduction := some GlareMethod.adaptive, upscale_scale := 7 / 2 },
   { mode := Mode.gray, glare_reduction := some GlareMethod.tophat, upscale_scale := 3 }]

/-- Stage-4 extraction parameters for one fallback preset. -/
def stage4Params (minc early : ℚ) (pre : PreParams) : ImprovedParams :=
  { min_confidence := minc, early_stop_confidence := early, pre := pre }

/-- The preprocessing preset of the Tesseract fallback (lines 1148-1155). -/
def tessPre : PreParams :=
  { upscale_scale := 3, mode := Mode.binary,
    glare_reduction := some GlareMethod.multi, sharpen := true }

/-- Process every YOLO crop through the extractor, accumulating results
(lines 896-920); a decode error on a crop propagates (no `try` here). -/
def runYoloCrops {PImg : Type} (C : Collab PImg) (minc early : ℚ) :
    List PImg → PState → Except DecodeError PState
  | [], st => Except.ok st
  | crop :: rest, st =>
    match extract_serials_improved C (C.encodeCrop crop) (yoloCropParams minc early) with
    | Except.error e => Except.error e
    | Except.ok l => runYoloCrops C minc early rest (addStage st l)

/-- YOLO ROI stage (lines 872-928): run the crops and return them sorted
when the first result is confident enough (`>= 0.8`). -/
def stageYolo {PImg : Type} (C : Collab PImg) (image_bytes : Bytes)
    (pp : ProgParams) : Except DecodeError (Answer ⊕ PState) :=
  let crops := if pp.use_yolo_roi then C.yoloDetect image_bytes else []
  match runYoloCrops C pp.min_confidence pp.early_stop_confidence crops ⟨[], [], 0⟩ with
  | Except.error e => Except.error e
  | Except.ok st =>
    if headHigh (8 / 10) st.all then Except.ok (Sum.inl (sortHitsDesc st.all, st.trace))
    else Except.ok (Sum.inr st)

/-- Stage 1 (lines 931-957): fast full-image pass, early-stop check on the
accumulated results, then the 40%-budget timeout check. -/
def stageFast {PImg : Type} (C : Collab PImg) (image_bytes : Bytes)
    (pp : ProgParams) (elapsed : Nat → ℚ) (st : PState) :
    Except DecodeError (Answer ⊕ PState) :=
  match extract_serials_improved C image_bytes
      (stage1Params pp.min_confidence pp.early_stop_confidence) with
  | Except.error e => Except.error e
  | Except.ok l1 =>
    let st := addStage st l1
    if headHigh pp.early_stop_confidence st.all then
      Except.ok (Sum.inl (sortHitsDesc st.all, st.trace))
    else if pp.max_processing_time * (4 / 10) < elapsed st.tIdx then
      Except.ok (Sum.inl (st.all, st.trace))
    else Except.ok (Sum.inr (bumpT st))

/-- The optional inverted pass of stage 2 (lines 965-986), with its own
early-stop check. -/
def stageMediumInv {PImg : Type} (C : Collab PImg) (image_bytes : Bytes)
    (pp : ProgParams) (st : PState) : Except DecodeError (Answer ⊕ PState) :=
  if pp.try_invert then
    match extract_serials_improved C image_bytes
        (stage2InvParams pp.min_confidence pp.early_stop_confidence) with
    | Except.error e => Except.error e
    | Except.ok l =>
      let st := addStage st l
      if headHigh pp.early_stop_confidence l then
        Except.ok (Sum.inl (sortHitsDesc st.all, st.trace))
      else Except.ok (Sum.inr st)
  else Except.ok (Sum.inr st)

/-- The enhanced pass of stage 2 (lines 988-1016): accumulated early-stop
check, then the 70%-budget timeout check. -/
def stageMediumEnh {PImg : Type} (C : Collab PImg) (image_bytes : Bytes)
    (pp : ProgParams) (elapsed : Nat → ℚ) (st : PState) :
    Except DecodeError (Answer ⊕ PState) :=
  match extract_serials_improved C image_bytes
      (stage2EnhParams pp.min_confidence pp.early_stop_confidence) with
  | Except.error e => Except.error e
  | Except.ok l2 =>
    let st := addStage st l2
    if headHigh pp.early_stop_confidence st.all then
      Except.ok (Sum.inl (sortHitsDesc st.all, st.trace))
    else if pp.max_processing_time * (7 / 10) < elapsed st.tIdx then
      Except.ok (Sum.inl (st.all, st.trace))
    else Except.ok (Sum.inr (bumpT st))

/-- Stage 2 (lines 959-1016): optional inverted pass with its own
early-stop check, enhanced pass, accumulated early-stop check, then the
70%-budget timeout check. -/
def stageMedium {PImg : Type} (C : Collab PImg) (image_bytes : Bytes)
    (pp : ProgParams) (elapsed : Nat → ℚ) (st : PState) :
    Except DecodeError (Answer ⊕ PState) :=
  match stageMediumInv C image_bytes pp st with
  | Except.error e => Except.error e
  | Except.ok (Sum.inl a) => Except.ok (Sum.inl a)
  | Except.ok (Sum.inr st) => stageMediumEnh C image_bytes pp elapsed st

/-- The multi-scale loop of stage 3 (lines 1054-1090): skip the scale
already used, stop at the 80%-budget check, stop early after a confident
scale result. -/
def scaleLoop {PImg : Type} (C : Collab PImg) (image_bytes : Bytes)
    (pp : ProgParams) (elapsed : Nat → ℚ) :
    List ℚ → PState → Except DecodeError PState
  | [], st => Except.ok st
  | scale :: rest, st =>
    if scale = 3 then scaleLoop C image_bytes pp elapsed rest st
    else if pp.max_processing_time * (8 / 10) < elapsed st.tIdx then
      Except.ok (bumpT st)
    else
      match extract_serials_improved C image_bytes
          (stage3Params pp.min_confidence pp.early_stop_confidence scale) with
      | Except.error e => Except.error e
      | Except.ok l =>
        let st := addStage (bumpT st) l
        if headHigh (8 / 10) l then Except.ok st
        else scaleLoop C image_bytes pp elapsed rest st

/-- Stage 3 (lines 1018-1090): full preprocessing with ROI, accumulated
early-stop check, then the multi-scale loop. -/
def stageFull {PImg : Type} (C : Collab PImg) (image_bytes : Bytes)
    (pp : ProgParams) (elapsed : Nat → ℚ) (st : PState) :
    Except DecodeError (Answer ⊕ PState) :=
  match extract_serials_improved C image_bytes
      (stage3Params pp.min_confidence pp.early_stop_confidence 3) with
  | Except.error e => Except.error e
  | Except.ok l3 =>
    let st := addStage st l3
    if headHigh pp.early_stop_confidence st.all then
      Except.ok (Sum.inl (sortHitsDesc st.all, st.trace))
    else if pp.try_multi_scale then
      match scaleLoop C image_bytes pp elapsed [2, 3, 4, 5] st with
      | Except.error e => Except.error e
      | Except.ok st' => Except.ok (Sum.inr st')
    else Except.ok (Sum.inr st)

/-- Lines 1092-1103: merge and deduplicate everything so far, return when
the top merged confidence reaches 0.7 or the full budget is exhausted. -/
def stageMergeCheck (pp : ProgParams) (elapsed : Nat → ℚ) (st : PState) :
    Answer ⊕ PState :=
  let results := merge_and_deduplicate_results st.all
  if headHigh (7 / 10) results then Sum.inl (results, st.trace)
  else if pp.max_processing_time < elapsed st.tIdx then Sum.inl (results, st.trace)
  else Sum.inr (bumpT st)

/-- The enhanced-EasyOCR fallback loop of stage 4 (lines 1110-1140):
exceptions (including decode errors) are caught and skipped; the first
attempt with a non-empty result is merged in and ends the loop. -/
def attemptLoop {PImg : Type} (C : Collab PImg) (image_bytes : Bytes)
    (pp : ProgParams) : List PreParams → PState → PState
  | [], st => st
  | pre :: rest, st =>
    match extract_serials_improved C image_bytes
        (stage4Params pp.min_confidence pp.early_stop_confidence pre) with
    | Except.error _ => attemptLoop C image_bytes pp rest st
    | Except.ok l =>
      if l = [] then attemptLoop C image_bytes pp rest st else addStage st l

/-- The Tesseract part of stage 4 (lines 1142-1175): preprocess with the
Tesseract preset (any failure is caught and skipped) and merge in the
Tesseract candidates when non-empty. -/
def stageTess {PImg : Type} (C : Collab PImg) (image_bytes : Bytes)
    (pp : ProgParams) (st : PState) : PState :=
  match preprocess_image C image_bytes tessPre with
  | Except.error _ => st
  | Except.ok processed =>
    let tess := extract_serials_with_tesseract pp.tesseract_available
      (C.tessCandidates (C.toRGB processed))
    if tess = [] then st else addStage st tess

/-- Stage 4 (lines 1105-1175): enhanced EasyOCR attempts and the Tesseract
fallback, both guarded by production mode / strategy flags; all failures
are caught and contribute nothing. -/
def stageFallback {PImg : Type} (C : Collab PImg) (image_bytes : Bytes)
    (pp : ProgParams) (st : PState) : PState :=
  if pp.production_mode ∨ pp.fallback_strategy ≠ FallbackStrategy.easyocr_only then
    let st :=
      if pp.fallback_strategy = FallbackStrategy.hybrid
          ∨ pp.fallback_strategy = FallbackStrategy.easyocr_only then
        attemptLoop C image_bytes pp fallbackAttempts st
      else st
    if pp.use_tesseract_fallback ∧ pp.tesseract_available
        ∧ (pp.fallback_strategy = FallbackStrategy.hybrid
          ∨ pp.fallback_strategy = FallbackStrategy.tesseract_only) then
      stageTess C image_bytes pp st
    else st
  else st

/-- `progressive_process` (`ocr_adapter_improved.py:825-1193`): the staged
controller, returning the candidate list of whichever stage terminates it,
or the final merged/deduplicated pool. -/
def progressive_process {PImg : Type} (C : Collab PImg) (image_bytes : Bytes)
    (pp : ProgParams) (elapsed : Nat → ℚ) : Except DecodeError Answer :=
  match stageYolo C image_bytes pp with
  | Except.error e => Except.error e
  | Except.ok (Sum.inl a) => Except.ok a
  | Except.ok (Sum.inr st) =>
    match stageFast C image_bytes pp elapsed st with
    | Except.error e => Except.error e
    | Except.ok (Sum.inl a) => Except.ok a
    | Except.ok (Sum.inr st) =>
      match stageMedium C image_bytes pp elapsed st with
      | Except.error e => Except.error e
      | Except.ok (Sum.inl a) => Except.ok a
      | Except.ok (Sum.inr st) =>
        match stageFull C image_bytes pp elapsed st with
        | Except.error e => Except.error e
        | Except.ok (Sum.inl a) => Except.ok a
        | Except.ok (Sum.inr st) =>
          match stageMergeCheck pp elapsed st with
          | Sum.inl a => Except.ok a
          | Sum.inr st =>
            let st := stageFallback C image_bytes pp st
            Except.ok (merge_and_deduplicate_results st.all, st.trace)

/-- The stage-1-only view of the controller: the YOLO crops, the fast
full-image pass, and the returns available up to the first timeout check.
Used to state that a zero time budget never reaches stage 2. -/
def progressive_stage1_only {PImg : Type} (C : Collab PImg) (image_bytes : Bytes)
    (pp : ProgParams) (elapsed : Nat → ℚ) : Except DecodeError Answer :=
  match stageYolo C image_bytes pp with
  | Except.error e => Except.error e
  | Except.ok (Sum.inl a) => Except.ok a
  | Except.ok (Sum.inr st) =>
    match stageFast C image_bytes pp elapsed st with
    | Except.error e => Except.error e
    | Except.ok (Sum.inl a) => Except.ok a
    | Except.ok (Sum.inr st) => Except.ok (st.all, st.trace)

/-- The property C1 claims of every surfaced serial: it passes the format
validator and is itself exactly 12 characters drawn from `A-Z0-9`. -/
def ValidSerialStr (s : Str) : Prop :=
  is_valid_apple_serial s = true ∧ s.length = 12 ∧ ∀ c ∈ s, isSerialChar c = true

/-- No ASCII lowercase letters (the image of `str.upper`). -/
def NoLower (v : Str) : Prop := ∀ x ∈ v, ¬(97 ≤ x ∧ x ≤ 122)

/-- The first character, if any, is not whitespace. -/
def HeadNotWs (v : Str) : Prop := ∀ x, v.head? = some x → isSpaceCh x = false

/-- The last character, if any, is not whitespace. -/
def LastNotWs (v : Str) : Prop := ∀ x, v.getLast? = some x → isSpaceCh x = false

/-- A string shape invariant of every candidate the readers build: no
lowercase letters and no whitespace at either end. On such strings the
validator's `strip().upper()` is the identity, so passing the validator
means the string itself is 12 characters of `A-Z0-9`. -/
def Clean (v : Str) : Prop := NoLower v ∧ HeadNotWs v ∧ LastNotWs v

/-- Controller-state invariant behind C8: the accumulated pool is exactly
the concatenation of the per-invocation lists, and every per-invocation
list is duplicate-free on serials. -/
def GoodState (st : PState) : Prop :=
  st.all = st.trace.flatten ∧ ∀ L ∈ st.trace, (L.map Prod.fst).Nodup

/-- The C8 property of a final answer: the returned list is at least as
long as every per-invocation list. -/
def GoodAnswer (a : Answer) : Prop := ∀ L ∈ a.2, L.length ≤ a.1.length

/-- A stage outcome is good: a returned answer satisfies the C8 property,
a passed-on state satisfies the state invariant. -/
def GoodStep : Answer ⊕ PState → Prop
  | Sum.inl a => GoodAnswer a
  | Sum.inr st => GoodState st

/-- A degenerate concrete collaborator bundle over the one-point image
type: the engine always reports `raw`; used by witnesses to evaluate the
pipeline models on closed inputs. -/
def constCollab (dec : Option Unit) (raw : List RawResult) : Collab Unit where
  decode := fun _ => dec
  enhance := fun _ _ => ()
  toRGB := fun _ => ()
  invertRGB := fun _ => ()
  rotate := fun _ _ => ()
  rotateQ := fun _ _ => ()
  cropBand := fun _ _ => ()
  cropBox := fun _ _ => ()
  projBands := fun _ _ => []
  kwBoxes := fun _ _ => []
  shape := fun _ => (0, 0)
  detectOrient := fun _ => 0
  engine := fun _ _ => raw
  yoloDetect := fun _ => []
  encodeCrop := fun _ => []
  tessCandidates := fun _ => []

/-!
## Theorems

General-purpose lemmas first, then one theorem per claim (with witnesses
and counterexamples as needed).
-/

/-! ### Membership lemmas for ambiguity expansion -/

theorem mem_insertAbsent {acc : List Str} {x : Str} (y : Str) (h : x ∈ acc) :
    x ∈ insertAbsent acc y := by
  unfold insertAbsent
  split
  · exact h
  · exact List.mem_append_left _ h

theorem self_mem_insertAbsent (acc : List Str) (y : Str) : y ∈ insertAbsent acc y := by
  unfold insertAbsent
  split
  · assumption
  · exact List.mem_append_right _ (List.mem_singleton.mpr rfl)

theorem mem_expandPass {x : Str} (i rep : Nat) :
    ∀ (orig acc : List Str), x ∈ acc → x ∈ expandPass i rep orig acc := by
  intro orig
  induction orig with
  | nil => intro acc h; exact h
  | cons v vs ih => intro acc h; exact ih _ (mem_insertAbsent _ h)

theorem mem_expandLoop {x : Str} (map : Nat → Option Nat) (skip : Nat → Nat → Bool) :
    ∀ (ps : List (Nat × Nat)) (vs : List Str), x ∈ vs → x ∈ expandLoop map skip ps vs := by
  intro ps
  induction ps with
  | nil => intro vs h; exact h
  | cons p rest ih =>
    intro vs h
    obtain ⟨i, ch⟩ := p
    unfold expandLoop
    split
    · exact ih _ h
    · match hm : map ch with
      | some rep => simp only [hm]; exact ih _ (mem_expandPass _ _ _ _ h)
      | none => simp only [hm]; exact ih _ h

theorem mem_foldl_insertAbsent {x : Str} :
    ∀ (l acc : List Str), x ∈ acc → x ∈ l.foldl insertAbsent acc := by
  intro l
  induction l with
  | nil => intro acc h; exact h
  | cons y ys ih => intro acc h; exact ih _ (mem_insertAbsent _ h)

/-- C10: For every input string `t`, the ambiguity-expansion function
returns a collection containing `t` itself (hence non-empty), in the basic
adapter and in the improved one for both values of `position_aware`: a
correctly recognised serial is never lost by the expansion step. -/
theorem C10_expand_contains_input (t : Str) (position_aware : Bool) :
    t ∈ expand_ambiguous t ∧ t ∈ expand_ambiguous_improved t position_aware := by
  constructor
  · exact mem_expandLoop _ _ _ _ (List.mem_singleton.mpr rfl)
  · unfold expand_ambiguous_improved
    have hbase : t ∈ expandLoop AMBIGUOUS_MAP_improved
        (fun i c => position_aware && t.length = 12 && (POSITION_RULES c i).isSome)
        t.enum [t] :=
      mem_expandLoop _ _ _ _ (List.mem_singleton.mpr rfl)
    simp only []
    split
    · exact mem_foldl_insertAbsent _ _ hbase
    · exact hbase

/-! ### Normalisation identity lemmas -/

theorem mapIdxFrom_congr_id (f : Nat → Nat → Nat) :
    ∀ (i : Nat) (s : Str), (∀ k c, s.get? k = some c → f (i + k) c = c) →
      mapIdxFrom f i s = s := by
  intro i s
  induction s generalizing i with
  | nil => intro _; rfl
  | cons c rest ih =>
    intro h
    unfold mapIdxFrom
    have h0 : f i c = c := by
      have := h 0 c (by simp)
      simpa using this
    rw [h0]
    congr 1
    refine ih (i + 1) ?_
    intro k x hk
    have := h (k + 1) x (by simpa using hk)
    simpa [Nat.add_assoc, Nat.add_comm 1 k] using this

/-- C6 (corrected form): on a string that is already upper-case, carries no
surrounding whitespace and contains no character of the ambiguous
look-alike table, normalisation is the identity for the basic normaliser
and for the improved one with `position_aware` off; with `position_aware`
on it is the identity provided additionally no character of the string has
a position-specific rule at its index. -/
theorem C6_normalize_identity (S : Str)
    (hstrip : pyStrip S = S) (hupper : pyUpper S = S) :
    ((∀ c ∈ S, AMBIGUOUS_MAP c = none) → normalize_ambiguous S = S)
    ∧ ((∀ c ∈ S, AMBIGUOUS_MAP_improved c = none) →
        normalize_ambiguous_improved S false = S)
    ∧ ((∀ c ∈ S, AMBIGUOUS_MAP_improved c = none) →
        (∀ k c, S.get? k = some c → POSITION_RULES c k = none) →
        normalize_ambiguous_improved S true = S) := by
  refine ⟨?_, ?_, ?_⟩
  · intro hamb
    unfold normalize_ambiguous
    rw [hstrip, hupper]
    have : ∀ c ∈ S, (AMBIGUOUS_MAP c).getD c = c := by
      intro c hc; rw [hamb c hc]; rfl
    calc S.map (fun c => (AMBIGUOUS_MAP c).getD c) = S.map id :=
          List.map_congr_left this
      _ = S := List.map_id S
  · intro hamb
    unfold normalize_ambiguous_improved
    rw [hstrip, hupper]
    refine mapIdxFrom_congr_id _ 0 S ?_
    intro k c hk
    have hc : c ∈ S := List.get?_mem hk
    simp [hamb c hc]
  · intro hamb hpos
    unfold normalize_ambiguous_improved
    rw [hstrip, hupper]
    refine mapIdxFrom_congr_id _ 0 S ?_
    intro k c hk
    have hc : c ∈ S := List.get?_mem hk
    by_cases h12 : S.length = 12
    · simp only [h12, and_true, if_pos trivial, Nat.zero_add]
      rw [hpos k c hk]
      simp [hamb c hc]
    · simp [h12, hamb c hc]

/-- C6 witness: the identity theorem applied at the concrete upper-case,
rule-free string `HHHHHHHHHHHH`. -/
theorem C6_normalize_identity_witness :
    normalize_ambiguous (codes ['H','H','H','H','H','H','H','H','H','H','H','H'])
      = codes ['H','H','H','H','H','H','H','H','H','H','H','H'] ∧
    normalize_ambiguous_improved (codes ['H','H','H','H','H','H','H','H','H','H','H','H']) true
      = codes ['H','H','H','H','H','H','H','H','H','H','H','H'] := by
  have h := C6_normalize_identity (codes ['H','H','H','H','H','H','H','H','H','H','H','H'])
    (by decide) (by decide)
  refine ⟨h.1 (by decide), h.2.2 (by decide) ?_⟩
  intro k c hk
  have hc : c ∈ codes ['H','H','H','H','H','H','H','H','H','H','H','H'] := List.get?_mem hk
  have hc72 : c = 72 := by
    simp only [codes] at hc
    simpa using hc
  have hk12 : k < 12 := by
    have := List.get?_eq_some.mp hk
    simpa [codes] using this.1
  subst hc72
  interval_cases k <;> decide

/-- C6 counterexample: `AAAAAEAAAAAA` is upper-case, unpadded, and contains
no character of the improved ambiguous table, yet position-aware
normalisation rewrites its `E` (position 5) to `F`, so normalisation is
not the identity when position-aware mode is enabled. -/
theorem C6_counterexample :
    pyStrip (codes ['A','A','A','A','A','E','A','A','A','A','A','A'])
      = codes ['A','A','A','A','A','E','A','A','A','A','A','A'] ∧
    pyUpper (codes ['A','A','A','A','A','E','A','A','A','A','A','A'])
      = codes ['A','A','A','A','A','E','A','A','A','A','A','A'] ∧
    (codes ['A','A','A','A','A','E','A','A','A','A','A','A']).all
      (fun c => (AMBIGUOUS_MAP_improved c).isNone) = true ∧
    normalize_ambiguous_improved
      (codes ['A','A','A','A','A','E','A','A','A','A','A','A']) true
      = codes ['A','A','A','A','A','F','A','A','A','A','A','A'] ∧
    decide (codes ['A','A','A','A','A','F','A','A','A','A','A','A']
      = codes ['A','A','A','A','A','E','A','A','A','A','A','A']) = false := by
  refine ⟨by decide, by decide, by decide, by decide, by decide⟩

/-! ### Aggregation lemmas -/

theorem aggregate_append (norm : Str → Str) (hits : List Hit) (h : Hit) :
    aggregate norm (hits ++ [h]) = addHit norm (aggregate norm hits) h := by
  simp [aggregate, List.foldl_append]

theorem firstSeenKeys_append (norm : Str → Str) (hits : List Hit) (h : Hit) :
    firstSeenKeys norm (hits ++ [h]) =
      if norm h.1 ∈ firstSeenKeys norm hits then firstSeenKeys norm hits
      else firstSeenKeys norm hits ++ [norm h.1] := by
  simp [firstSeenKeys, List.foldl_append]

theorem addHit_keys (norm : Str → Str) (s : Str) (c : ℚ) :
    ∀ acc : List Entry, (addHit norm acc (s, c)).map Entry.key =
      if norm s ∈ acc.map Entry.key then acc.map Entry.key
      else acc.map Entry.key ++ [norm s] := by
  intro acc
  induction acc with
  | nil => simp [addHit]
  | cons e rest ih =>
    by_cases he : e.key = norm s
    · simp [addHit, he]
    · have hne : ¬ norm s = e.key := fun h => he h.symm
      simp only [addHit, if_neg he, List.map_cons]
      rw [ih]
      by_cases hmem : norm s ∈ rest.map Entry.key
      · simp [hmem, hne]
      · simp [hmem, hne]

theorem aggregate_keys (norm : Str → Str) (hits : List Hit) :
    (aggregate norm hits).map Entry.key = firstSeenKeys norm hits := by
  induction hits using List.reverseRecOn with
  | nil => rfl
  | append_singleton hits h ih =>
    obtain ⟨s, c⟩ := h
    rw [aggregate_append, addHit_keys, ih, firstSeenKeys_append]

theorem firstSeenKeys_nodup (norm : Str → Str) (hits : List Hit) :
    (firstSeenKeys norm hits).Nodup := by
  induction hits using List.reverseRecOn with
  | nil => simp [firstSeenKeys]
  | append_singleton hits h ih =>
    rw [firstSeenKeys_append]
    split
    · exact ih
    · simp only [List.nodup_append, List.nodup_cons]
      exact ⟨ih, by simp, by simpa using fun hmem => by simp_all⟩

theorem aggregate_keys_nodup (norm : Str → Str) (hits : List Hit) :
    ((aggregate norm hits).map Entry.key).Nodup := by
  rw [aggregate_keys]; exact firstSeenKeys_nodup norm hits

theorem addHit_not_mem (norm : Str → Str) (s : Str) (c : ℚ) :
    ∀ acc : List Entry, norm s ∉ acc.map Entry.key →
      addHit norm acc (s, c) = acc ++ [⟨norm s, c, s, c⟩] := by
  intro acc
  induction acc with
  | nil => intro _; rfl
  | cons e rest ih =>
    intro h
    have he : ¬ e.key = norm s := by
      intro hk
      exact h (by simp [hk.symm])
    have hrest : norm s ∉ rest.map Entry.key := fun hm => h (by simp [hm])
    simp [addHit, he, ih hrest]

theorem addHit_mem_key (norm : Str → Str) (s : Str) (c : ℚ) :
    ∀ acc : List Entry, (acc.map Entry.key).Nodup → norm s ∈ acc.map Entry.key →
      addHit norm acc (s, c) = acc.map (bumpEntry norm s c) := by
  intro acc
  induction acc with
  | nil => intro _ h; simp at h
  | cons e rest ih =>
    intro hnd hmem
    rw [List.map_cons, List.nodup_cons] at hnd
    by_cases he : e.key = norm s
    · have hrest : ∀ e' ∈ rest, e'.key ≠ norm s := by
        intro e' he' hk
        exact hnd.1 (by rw [he, ← hk]; exact List.mem_map_of_mem _ he')
      have : rest.map (bumpEntry norm s c) = rest := by
        apply List.map_congr_left ?_ |>.trans (List.map_id rest)
        intro e' he'
        simp [bumpEntry, hrest e' he']
      simp [addHit, he, bumpEntry, this]
    · have hmem' : norm s ∈ rest.map Entry.key := by
        rcases List.mem_cons.mp hmem with h | h
        · exact absurd h.symm he
        · exact h
      simp [addHit, he, bumpEntry, ih hnd.2 hmem']

/-- The aggregation invariant behind C2: every entry's stored surface form
is one of the hits of its key group, with the maximal confidence in that
group; and every hit's key has an entry. -/
theorem aggregate_inv (norm : Str → Str) (hits : List Hit) :
    (∀ q ∈ hits, norm q.1 ∈ (aggregate norm hits).map Entry.key) ∧
    (∀ e ∈ aggregate norm hits, (e.best, e.bestConf) ∈ hits ∧ norm e.best = e.key ∧
      ∀ q ∈ hits, norm q.1 = e.key → q.2 ≤ e.bestConf) := by
  induction hits using List.reverseRecOn with
  | nil => exact ⟨by simp, by simp [aggregate]⟩
  | append_singleton hits h ih =>
    obtain ⟨s, c⟩ := h
    obtain ⟨ihComplete, ihBest⟩ := ih
    rw [aggregate_append]
    by_cases hmem : norm s ∈ (aggregate norm hits).map Entry.key
    · rw [addHit_mem_key norm s c _ (aggregate_keys_nodup norm hits) hmem]
      have hkeys : ((aggregate norm hits).map (bumpEntry norm s c)).map Entry.key
          = (aggregate norm hits).map Entry.key := by
        rw [List.map_map]
        apply List.map_congr_left
        intro e _
        by_cases he : e.key = norm s <;> simp [bumpEntry, he]
      constructor
      · intro q hq
        rw [hkeys]
        rcases List.mem_append.mp hq with h | h
        · exact ihComplete q h
        · rw [List.mem_singleton.mp h]; exact hmem
      · intro e' he'
        obtain ⟨e, he, rfl⟩ := List.mem_map.mp he'
        obtain ⟨hbestMem, hbestKey, hbestMax⟩ := ihBest e he
        by_cases hek : e.key = norm s
        · by_cases hlt : e.bestConf < c
          · have hb : bumpEntry norm s c e = ⟨e.key, e.score + c, s, c⟩ := by
              simp only [bumpEntry, if_pos hek, if_pos hlt]
            rw [hb]
            refine ⟨List.mem_append_right _ (by simp), by simpa using hek.symm, ?_⟩
            intro q hq hqk
            simp only at hqk ⊢
            rcases List.mem_append.mp hq with h | h
            · exact le_of_lt (lt_of_le_of_lt (hbestMax q h hqk) hlt)
            · rw [List.mem_singleton.mp h]
          · have hb : bumpEntry norm s c e = ⟨e.key, e.score + c, e.best, e.bestConf⟩ := by
              simp only [bumpEntry, if_pos hek, if_neg hlt]
            rw [hb]
            refine ⟨List.mem_append_left _ hbestMem, by simpa using hbestKey, ?_⟩
            intro q hq hqk
            simp only at hqk ⊢
            rcases List.mem_append.mp hq with h | h
            · exact hbestMax q h hqk
            · rw [List.mem_singleton.mp h]
              exact le_of_not_lt hlt
        · have hb : bumpEntry norm s c e = e := by
            simp only [bumpEntry, if_neg hek]
          rw [hb]
          refine ⟨List.mem_append_left _ hbestMem, hbestKey, ?_⟩
          intro q hq hqk
          rcases List.mem_append.mp hq with h | h
          · exact hbestMax q h hqk
          · exfalso
            rw [List.mem_singleton.mp h] at hqk
            exact hek (by simp_all)
    · rw [addHit_not_mem norm s c _ hmem]
      constructor
      · intro q hq
        simp only [List.map_append]
        rcases List.mem_append.mp hq with h | h
        · exact List.mem_append_left _ (ihComplete q h)
        · rw [List.mem_singleton.mp h]
          exact List.mem_append_right _ (by simp)
      · intro e' he'
        rcases List.mem_append.mp he' with h | h
        · obtain ⟨hbestMem, hbestKey, hbestMax⟩ := ihBest e' h
          refine ⟨List.mem_append_left _ hbestMem, hbestKey, ?_⟩
          intro q hq hqk
          rcases List.mem_append.mp hq with hh | hh
          · exact hbestMax q hh hqk
          · exfalso
            rw [List.mem_singleton.mp hh] at hqk
            exact hmem (hqk ▸ List.mem_map_of_mem Entry.key h)
        · have he'' := List.mem_singleton.mp h
          subst he''
          refine ⟨List.mem_append_right _ (by simp), rfl, ?_⟩
          intro q hq hqk
          rcases List.mem_append.mp hq with hh | hh
          · have hqk' : norm q.1 = norm s := by simpa using hqk
            exact absurd (hqk' ▸ ihComplete q hh) hmem
          · rw [List.mem_singleton.mp hh]

/-- C2 (corrected form): the confidence attached to each emitted candidate
is the confidence of the best single hit of its key group — the pair is
literally one of the input hits, maximal among the hits whose normalised
key matches — not the sum of the group's confidences capped at 1.0 (the
accumulated sum is used only for ordering). -/
theorem C2_confidence_is_best_single_hit (norm : Str → Str) (hits : List Hit) :
    ∀ p ∈ resolve norm hits, p ∈ hits ∧
      ∀ q ∈ hits, norm q.1 = norm p.1 → q.2 ≤ p.2 := by
  intro p hp
  obtain ⟨e, he, rfl⟩ := List.mem_map.mp hp
  have heagg : e ∈ aggregate norm hits :=
    (List.perm_insertionSort scoreGe (aggregate norm hits)).subset he
  obtain ⟨hmem, hkey, hmax⟩ := (aggregate_inv norm hits).2 e heagg
  exact ⟨hmem, fun q hq hqk => hmax q hq (hqk.trans hkey)⟩

/-- C2 witness: the theorem applied to two same-key hits, showing the
emitted pair is an input hit whose confidence bounds the other hit's. -/
theorem C2_confidence_is_best_single_hit_witness :
    (codes ['C','0','2','Y','9','5','A','8','J','G','5','H'], (1:ℚ)/2)
      ∈ ([(codes ['C','0','2','Y','9','5','A','8','J','G','5','H'], (1:ℚ)/2),
          (codes ['C','0','2','Y','9','5','A','8','J','G','5','H'], (1:ℚ)/4)] : List Hit) ∧
    (1:ℚ)/4 ≤ (1:ℚ)/2 :=
  ⟨(C2_confidence_is_best_single_hit normalize_ambiguous _
      (codes ['C','0','2','Y','9','5','A','8','J','G','5','H'], (1:ℚ)/2) (by decide)).1,
   (C2_confidence_is_best_single_hit normalize_ambiguous
      [(codes ['C','0','2','Y','9','5','A','8','J','G','5','H'], (1:ℚ)/2),
       (codes ['C','0','2','Y','9','5','A','8','J','G','5','H'], (1:ℚ)/4)]
      (codes ['C','0','2','Y','9','5','A','8','J','G','5','H'], (1:ℚ)/2) (by decide)).2
     (codes ['C','0','2','Y','9','5','A','8','J','G','5','H'], (1:ℚ)/4)
     (by decide) (by decide)⟩

/-- C2 counterexample: two hits of the same serial with confidences 1/2
and 1/4: the resolver emits confidence 1/2 (the best single hit), not the
claimed capped sum 3/4. -/
theorem C2_counterexample :
    resolve_base [(codes ['C','0','2','Y','9','5','A','8','J','G','5','H'], (1:ℚ)/2),
        (codes ['C','0','2','Y','9','5','A','8','J','G','5','H'], (1:ℚ)/4)]
      = [(codes ['C','0','2','Y','9','5','A','8','J','G','5','H'], (1:ℚ)/2)] ∧
    min ((1:ℚ)/2 + (1:ℚ)/4) 1 = (3:ℚ)/4 ∧ decide ((1:ℚ)/2 = (3:ℚ)/4) = false := by
  refine ⟨by decide, by norm_num, by decide⟩

/-- C3 (corrected form): the resolver's output is ordered by aggregate
score descending, and whenever two keys have equal (or more generally
non-increasing) aggregate score their first-seen order — the order of the
aggregation list, whose keys are exactly `firstSeenKeys` — is preserved;
the single-hit confidence plays no role in the ordering. -/
theorem C3_ordering (norm : Str → Str) (hits : List Hit) :
    (rankedEntries norm hits).Sorted scoreGe ∧
    (aggregate norm hits).map Entry.key = firstSeenKeys norm hits ∧
    ∀ a b : Entry, List.Sublist [a, b] (aggregate norm hits) → b.score ≤ a.score →
      List.Sublist [a, b] (rankedEntries norm hits) := by
  refine ⟨List.sorted_insertionSort scoreGe _, aggregate_keys norm hits, ?_⟩
  intro a b hab hge
  exact List.pair_sublist_insertionSort hge hab

/-- C3 witness: the stability part applied to two distinct keys of equal
aggregate score, preserving their first-seen order in the ranked list. -/
theorem C3_ordering_witness :
    List.Sublist
      [(⟨codes ['C','C','C','C','C','C','C','C','C','C','C','C'], (1:ℚ)/2,
        codes ['C','C','C','C','C','C','C','C','C','C','C','C'], (1:ℚ)/2⟩ : Entry),
      ⟨codes ['F','F','F','F','F','F','F','F','F','F','F','F'], (1:ℚ)/2,
        codes ['F','F','F','F','F','F','F','F','F','F','F','F'], (1:ℚ)/2⟩]
      (rankedEntries normalize_ambiguous
          [(codes ['C','C','C','C','C','C','C','C','C','C','C','C'], (1:ℚ)/2),
           (codes ['F','F','F','F','F','F','F','F','F','F','F','F'], (1:ℚ)/2)]) :=
  (C3_ordering normalize_ambiguous _).2.2 _ _
    (by
      have hagg : aggregate normalize_ambiguous
          [(codes ['C','C','C','C','C','C','C','C','C','C','C','C'], (1:ℚ)/2),
           (codes ['F','F','F','F','F','F','F','F','F','F','F','F'], (1:ℚ)/2)]
          = [⟨codes ['C','C','C','C','C','C','C','C','C','C','C','C'], (1:ℚ)/2,
              codes ['C','C','C','C','C','C','C','C','C','C','C','C'], (1:ℚ)/2⟩,
             ⟨codes ['F','F','F','F','F','F','F','F','F','F','F','F'], (1:ℚ)/2,
              codes ['F','F','F','F','F','F','F','F','F','F','F','F'], (1:ℚ)/2⟩] := by decide
      rw [hagg])
    (le_refl _)

/-- C3 counterexample: keys `CCCCCCCCCCCC` (two hits of 1/4) and
`FFFFFFFFFFFF` (one hit of 1/2) have equal aggregate score 1/2, and the
second key's highest single-hit confidence (1/2) strictly exceeds the
first's (1/4); the claim then requires `FFFFFFFFFFFF` first, but the code
emits `CCCCCCCCCCCC` first (first-seen order). -/
theorem C3_counterexample :
    rankedEntries normalize_ambiguous
        [(codes ['C','C','C','C','C','C','C','C','C','C','C','C'], (1:ℚ)/4),
         (codes ['C','C','C','C','C','C','C','C','C','C','C','C'], (1:ℚ)/4),
         (codes ['F','F','F','F','F','F','F','F','F','F','F','F'], (1:ℚ)/2)]
      = [⟨codes ['C','C','C','C','C','C','C','C','C','C','C','C'], (1:ℚ)/2,
          codes ['C','C','C','C','C','C','C','C','C','C','C','C'], (1:ℚ)/4⟩,
         ⟨codes ['F','F','F','F','F','F','F','F','F','F','F','F'], (1:ℚ)/2,
          codes ['F','F','F','F','F','F','F','F','F','F','F','F'], (1:ℚ)/2⟩] ∧
    resolve_base
        [(codes ['C','C','C','C','C','C','C','C','C','C','C','C'], (1:ℚ)/4),
         (codes ['C','C','C','C','C','C','C','C','C','C','C','C'], (1:ℚ)/4),
         (codes ['F','F','F','F','F','F','F','F','F','F','F','F'], (1:ℚ)/2)]
      = [(codes ['C','C','C','C','C','C','C','C','C','C','C','C'], (1:ℚ)/4),
         (codes ['F','F','F','F','F','F','F','F','F','F','F','F'], (1:ℚ)/2)] ∧
    ((1:ℚ)/4 < (1:ℚ)/2) := by
  refine ⟨by decide, by decide, by norm_num⟩

/-! ### Relative-order lemmas for stable sorting -/

theorem pair_sublist_or {α : Type} {l : List α} {a b : α}
    (ha : a ∈ l) (hb : b ∈ l) (hne : a ≠ b) :
    List.Sublist [a, b] l ∨ List.Sublist [b, a] l := by
  induction l with
  | nil => cases ha
  | cons x t ih =>
    rcases List.mem_cons.mp ha with rfl | hat
    · left
      have hbt : b ∈ t := by
        rcases List.mem_cons.mp hb with h | h
        · exact absurd h.symm hne
        · exact h
      exact (List.singleton_sublist.mpr hbt).cons₂ a
    · rcases List.mem_cons.mp hb with rfl | hbt
      · right
        exact (List.singleton_sublist.mpr hat).cons₂ b
      · rcases ih hat hbt with h | h
        · exact Or.inl (h.cons x)
        · exact Or.inr (h.cons x)

theorem sublist_pair_asymm {α : Type} {l : List α} {a b : α}
    (hnd : l.Nodup) (hne : a ≠ b)
    (h1 : List.Sublist [a, b] l) (h2 : List.Sublist [b, a] l) : False := by
  induction l with
  | nil => cases h1
  | cons x t ih =>
    rw [List.nodup_cons] at hnd
    cases h1 with
    | cons _ h1t =>
      cases h2 with
      | cons _ h2t => exact ih hnd.2 h1t h2t
      | cons₂ _ h2t =>
        exact hnd.1 (h1t.subset (by simp))
    | cons₂ _ h1t =>
      cases h2 with
      | cons _ h2t =>
        exact hnd.1 (h2t.subset (by simp))
      | cons₂ _ h2t => exact hne rfl

theorem pair_sublist_of_sorted_lt {l : List Entry} {a b : Entry}
    (hs : l.Sorted scoreGe) (ha : a ∈ l) (hb : b ∈ l) (hne : a ≠ b)
    (hlt : b.score < a.score) : List.Sublist [a, b] l := by
  rcases pair_sublist_or ha hb hne with h | h
  · exact h
  · exfalso
    have hp : List.Pairwise scoreGe [b, a] := List.Pairwise.sublist h hs
    exact absurd (List.pairwise_pair.mp hp) (not_le.mpr hlt)

theorem aggregate_entries_nodup (norm : Str → Str) (hits : List Hit) :
    (aggregate norm hits).Nodup :=
  (aggregate_keys_nodup norm hits).of_map

theorem rankedEntries_nodup (norm : Str → Str) (hits : List Hit) :
    (rankedEntries norm hits).Nodup :=
  ((List.perm_insertionSort scoreGe (aggregate norm hits)).nodup_iff).mpr
    (aggregate_entries_nodup norm hits)

theorem bumpEntry_key (norm : Str → Str) (s : Str) (c : ℚ) (e : Entry) :
    (bumpEntry norm s c e).key = e.key := by
  unfold bumpEntry
  split <;> rfl

/-- C7: appending one additional hit with non-negative confidence for a
key already present never decreases that key's rank relative to keys that
received no new hit: if the entry `a` of the repeated key precedes an
entry `b` of a different key in the ranked output, the updated entry of
`a`'s key still precedes `b` after the append. -/
theorem C7_aggregation_monotonic (norm : Str → Str) (hits : List Hit)
    (s : Str) (c : ℚ) (hc : 0 ≤ c) (a b : Entry)
    (hab : List.Sublist [a, b] (rankedEntries norm hits))
    (ha : a.key = norm s) (hb : b.key ≠ norm s) :
    List.Sublist [bumpEntry norm s c a, b]
      (rankedEntries norm (hits ++ [(s, c)])) := by
  have hperm := List.perm_insertionSort scoreGe (aggregate norm hits)
  have haA : a ∈ aggregate norm hits := hperm.subset (hab.subset (by simp))
  have hbA : b ∈ aggregate norm hits := hperm.subset (hab.subset (by simp))
  have hmem : norm s ∈ (aggregate norm hits).map Entry.key :=
    ha ▸ List.mem_map_of_mem Entry.key haA
  have hagg' : aggregate norm (hits ++ [(s, c)])
      = (aggregate norm hits).map (bumpEntry norm s c) := by
    rw [aggregate_append, addHit_mem_key norm s c _ (aggregate_keys_nodup norm hits) hmem]
  have hbump_b : bumpEntry norm s c b = b := by simp [bumpEntry, hb]
  have hne : a ≠ b := fun h => hb (h ▸ ha)
  have hsorted : (rankedEntries norm hits).Sorted scoreGe :=
    List.sorted_insertionSort scoreGe _
  have hge : scoreGe a b := List.pairwise_pair.mp (List.Pairwise.sublist hab hsorted)
  have hsa : (bumpEntry norm s c a).score = a.score + c := by
    simp [bumpEntry, ha]
  have hne' : bumpEntry norm s c a ≠ b := by
    intro h
    exact hb (by rw [← h, bumpEntry_key, ha])
  rcases lt_or_eq_of_le hge with hlt | heq
  · -- strictly larger aggregate: position forced by sortedness alone
    have haA' : bumpEntry norm s c a ∈ aggregate norm (hits ++ [(s, c)]) :=
      hagg' ▸ List.mem_map_of_mem (bumpEntry norm s c) haA
    have hbA' : b ∈ aggregate norm (hits ++ [(s, c)]) :=
      hagg' ▸ hbump_b ▸ List.mem_map_of_mem (bumpEntry norm s c) hbA
    have hperm' := List.perm_insertionSort scoreGe (aggregate norm (hits ++ [(s, c)]))
    refine pair_sublist_of_sorted_lt (List.sorted_insertionSort scoreGe _)
      (hperm'.mem_iff.mpr haA') (hperm'.mem_iff.mpr hbA') hne' ?_
    rw [hsa]
    exact lt_of_lt_of_le hlt (le_add_of_nonneg_right hc)
  · -- equal aggregates: the pair order comes from first-seen order
    have hagg_pair : List.Sublist [a, b] (aggregate norm hits) := by
      rcases pair_sublist_or haA hbA hne with h | h
      · exact h
      · exfalso
        have hba : List.Sublist [b, a] (rankedEntries norm hits) :=
          List.pair_sublist_insertionSort (le_of_eq heq.symm) h
        exact sublist_pair_asymm (rankedEntries_nodup norm hits) hne hab hba
    have hpair' : List.Sublist [bumpEntry norm s c a, b]
        (aggregate norm (hits ++ [(s, c)])) := by
      rw [hagg']
      have := hagg_pair.map (bumpEntry norm s c)
      simpa [hbump_b] using this
    refine List.pair_sublist_insertionSort ?_ hpair'
    show b.score ≤ (bumpEntry norm s c a).score
    rw [hsa, ← heq]
    exact le_add_of_nonneg_right hc

/-- C7 witness: the monotonicity theorem applied to a concrete two-key
state with one appended hit for the leading key. -/
theorem C7_aggregation_monotonic_witness :
    List.Sublist
      [bumpEntry normalize_ambiguous (codes ['C','C','C','C','C','C','C','C','C','C','C','C'])
        ((1:ℚ)/4)
        ⟨codes ['C','C','C','C','C','C','C','C','C','C','C','C'], (1:ℚ)/2,
          codes ['C','C','C','C','C','C','C','C','C','C','C','C'], (1:ℚ)/2⟩,
       ⟨codes ['F','F','F','F','F','F','F','F','F','F','F','F'], (1:ℚ)/4,
          codes ['F','F','F','F','F','F','F','F','F','F','F','F'], (1:ℚ)/4⟩]
      (rankedEntries normalize_ambiguous
        ([(codes ['C','C','C','C','C','C','C','C','C','C','C','C'], (1:ℚ)/2),
          (codes ['F','F','F','F','F','F','F','F','F','F','F','F'], (1:ℚ)/4)]
          ++ [(codes ['C','C','C','C','C','C','C','C','C','C','C','C'], (1:ℚ)/4)])) := by
  refine C7_aggregation_monotonic normalize_ambiguous _ _ _ (by norm_num) _ _ ?_ (by decide) (by decide)
  have hranked : rankedEntries normalize_ambiguous
      [(codes ['C','C','C','C','C','C','C','C','C','C','C','C'], (1:ℚ)/2),
       (codes ['F','F','F','F','F','F','F','F','F','F','F','F'], (1:ℚ)/4)]
      = [⟨codes ['C','C','C','C','C','C','C','C','C','C','C','C'], (1:ℚ)/2,
           codes ['C','C','C','C','C','C','C','C','C','C','C','C'], (1:ℚ)/2⟩,
         ⟨codes ['F','F','F','F','F','F','F','F','F','F','F','F'], (1:ℚ)/4,
           codes ['F','F','F','F','F','F','F','F','F','F','F','F'], (1:ℚ)/4⟩] := by decide
  rw [hranked]

/-! ### Character-class lemmas -/

theorem upperChar_serial {c : Nat} (h : isAlnumCh c = true) :
    isSerialChar (upperChar c) = true := by
  simp only [isAlnumCh, Bool.or_eq_true, Bool.and_eq_true, decide_eq_true_eq] at h
  simp only [isSerialChar, upperChar, Bool.or_eq_true, Bool.and_eq_true, decide_eq_true_eq]
  split <;> omega

theorem upperChar_eq_self {c : Nat} (h : ¬(97 ≤ c ∧ c ≤ 122)) : upperChar c = c := by
  simp [upperChar, h]

theorem upperChar_not_lower (c : Nat) : ¬(97 ≤ upperChar c ∧ upperChar c ≤ 122) := by
  simp only [upperChar]
  split <;> omega

theorem serialChar_not_lower {c : Nat} (h : isSerialChar c = true) :
    ¬(97 ≤ c ∧ c ≤ 122) := by
  simp only [isSerialChar, Bool.or_eq_true, Bool.and_eq_true, decide_eq_true_eq] at h
  omega

theorem serialChar_not_space {c : Nat} (h : isSerialChar c = true) :
    isSpaceCh c = false := by
  simp only [isSerialChar, Bool.or_eq_true, Bool.and_eq_true, decide_eq_true_eq] at h
  simp only [isSpaceCh, Bool.or_eq_false_iff, Bool.and_eq_false_iff, decide_eq_false_iff_not,
    Bool.and_eq_true, decide_eq_true_eq]
  omega

theorem upperChar_space {c : Nat} (h : isSpaceCh (upperChar c) = true) :
    isSpaceCh c = true := by
  simp only [upperChar] at h
  split at h
  · simp only [isSpaceCh, Bool.or_eq_true, Bool.and_eq_true, decide_eq_true_eq] at h
    omega
  · exact h

/-! ### Identity of strip and upper on clean strings -/

theorem clean_of_serialChars {v : Str} (h : ∀ c ∈ v, isSerialChar c = true) : Clean v := by
  refine ⟨fun x hx => serialChar_not_lower (h x hx), ?_, ?_⟩
  · intro x hx
    exact serialChar_not_space (h x (List.mem_of_mem_head? (by simp [hx])))
  · intro x hx
    exact serialChar_not_space (h x (List.mem_of_mem_getLast? (by simp [hx])))

theorem dropWhile_eq_self_of_head {l : Str}
    (h : ∀ x, l.head? = some x → isSpaceCh x = false) : l.dropWhile isSpaceCh = l := by
  cases l with
  | nil => rfl
  | cons c t => simp [List.dropWhile, h c rfl]

theorem getLast?_reverse' (l : Str) : l.reverse.getLast? = l.head? := by
  have h := List.head?_reverse l.reverse
  rw [List.reverse_reverse] at h
  exact h.symm

theorem pyStrip_eq_self {v : Str} (h1 : HeadNotWs v) (h2 : LastNotWs v) :
    pyStrip v = v := by
  unfold pyStrip
  rw [dropWhile_eq_self_of_head h1]
  rw [dropWhile_eq_self_of_head ?_, List.reverse_reverse]
  intro x hx
  rw [List.head?_reverse] at hx
  exact h2 x hx

theorem pyUpper_eq_self {v : Str} (h : NoLower v) : pyUpper v = v := by
  unfold pyUpper
  have : ∀ c ∈ v, upperChar c = c := fun c hc => upperChar_eq_self (h c hc)
  exact (List.map_congr_left this).trans (List.map_id v)

/-- On a clean string, passing the validator forces the string itself to
be exactly 12 characters of `A-Z0-9`. -/
theorem validSerial_of_clean {v : Str} (hc : Clean v)
    (hv : is_valid_apple_serial v = true) : ValidSerialStr v := by
  obtain ⟨hl, h1, h2⟩ := hc
  refine ⟨hv, ?_⟩
  unfold is_valid_apple_serial at hv
  split at hv
  · exact absurd hv (by simp)
  · rw [pyStrip_eq_self h1 h2, pyUpper_eq_self hl] at hv
    simp only [basicPatternMatch, Bool.and_eq_true, decide_eq_true_eq, List.all_eq_true] at hv
    exact ⟨hv.1, hv.2⟩

/-! ### Character soundness of the cleaners and expanders -/

theorem cleanText_serialChars (t : Str) : ∀ c ∈ cleanText t, isSerialChar c = true := by
  intro c hc
  unfold cleanText pyUpper at hc
  obtain ⟨y, hy, rfl⟩ := List.mem_map.mp hc
  exact upperChar_serial (List.of_mem_filter hy)

theorem ambmap_serial {c r : Nat} (h : AMBIGUOUS_MAP c = some r) :
    isSerialChar r = true := by
  unfold AMBIGUOUS_MAP at h
  split_ifs at h <;>
    first
      | exact Option.noConfusion h
      | (rw [← Option.some.inj h]; decide)

theorem ambmap_improved_serial {c r : Nat} (h : AMBIGUOUS_MAP_improved c = some r) :
    isSerialChar r = true := by
  unfold AMBIGUOUS_MAP_improved at h
  split_ifs at h
  · rw [← Option.some.inj h]; decide
  · rw [← Option.some.inj h]; decide
  · exact ambmap_serial h

theorem some_of_ite {p : Prop} [Decidable p] {x r : Nat}
    (h : (if p then some x else none) = some r) : r = x := by
  split at h
  · exact (Option.some.inj h).symm
  · exact Option.noConfusion h

theorem posrules_serial {c i r : Nat} (h : POSITION_RULES c i = some r) :
    isSerialChar r = true := by
  unfold POSITION_RULES at h
  by_cases h0 : c = ord '0'
  · rw [if_pos h0] at h
    rw [some_of_ite h]; decide
  rw [if_neg h0] at h
  by_cases h1 : c = ord '1'
  · rw [if_pos h1] at h
    rw [some_of_ite h]; decide
  rw [if_neg h1] at h
  by_cases h2 : c = ord '2'
  · rw [if_pos h2] at h
    rw [some_of_ite h]; decide
  rw [if_neg h2] at h
  by_cases h3 : c = ord '5'
  · rw [if_pos h3] at h
    rw [some_of_ite h]; decide
  rw [if_neg h3] at h
  by_cases h4 : c = ord '8'
  · rw [if_pos h4] at h
    rw [some_of_ite h]; decide
  rw [if_neg h4] at h
  by_cases h5 : c = ord 'O'
  · rw [if_pos h5] at h
    rw [some_of_ite h]; decide
  rw [if_neg h5] at h
  by_cases h6 : c = ord 'I'
  · rw [if_pos h6] at h
    rw [some_of_ite h]; decide
  rw [if_neg h6] at h
  by_cases h7 : c = ord 'L'
  · rw [if_pos h7] at h
    rw [some_of_ite h]; decide
  rw [if_neg h7] at h
  by_cases h8 : c = ord 'Z'
  · rw [if_pos h8] at h
    rw [some_of_ite h]; decide
  rw [if_neg h8] at h
  by_cases h9 : c = ord 'S'
  · rw [if_pos h9] at h
    rw [some_of_ite h]; decide
  rw [if_neg h9] at h
  by_cases h10 : c = ord 'B'
  · rw [if_pos h10] at h
    rw [some_of_ite h]; decide
  rw [if_neg h10] at h
  by_cases h11 : c = ord 'Q'
  · rw [if_pos h11] at h
    rw [some_of_ite h]; decide
  rw [if_neg h11] at h
  by_cases h12 : c = ord 'G'
  · rw [if_pos h12] at h
    rw [some_of_ite h]; decide
  rw [if_neg h12] at h
  by_cases h13 : c = ord 'D'
  · rw [if_pos h13] at h
    rw [some_of_ite h]; decide
  rw [if_neg h13] at h
  by_cases h14 : c = ord 'T'
  · rw [if_pos h14] at h
    rw [some_of_ite h]; decide
  rw [if_neg h14] at h
  by_cases h15 : c = ord 'E'
  · rw [if_pos h15] at h
    rw [some_of_ite h]; decide
  rw [if_neg h15] at h
  by_cases h16 : c = ord 'J'
  · rw [if_pos h16] at h
    rw [some_of_ite h]; decide
  rw [if_neg h16] at h
  by_cases h17 : c = ord 'C'
  · rw [if_pos h17] at h
    rw [some_of_ite h]; decide
  rw [if_neg h17] at h
  by_cases h18 : c = ord 'Y'
  · rw [if_pos h18] at h
    rw [some_of_ite h]; decide
  rw [if_neg h18] at h
  exact Option.noConfusion h

theorem mem_insertAbsent_cases {acc : List Str} {x w : Str}
    (h : w ∈ insertAbsent acc x) : w ∈ acc ∨ w = x := by
  unfold insertAbsent at h
  split at h
  · exact Or.inl h
  · rcases List.mem_append.mp h with h | h
    · exact Or.inl h
    · exact Or.inr (List.mem_singleton.mp h)

theorem mem_expandPass_cases (i rep : Nat) :
    ∀ (orig acc : List Str) (w : Str), w ∈ expandPass i rep orig acc →
      w ∈ acc ∨ ∃ v ∈ orig, w = subst v i rep := by
  intro orig
  induction orig with
  | nil => intro acc w h; exact Or.inl h
  | cons v vs ih =>
    intro acc w h
    rcases ih _ w h with h' | ⟨v', hv', rfl⟩
    · rcases mem_insertAbsent_cases h' with h'' | h''
      · exact Or.inl h''
      · exact Or.inr ⟨v, by simp, h''⟩
    · exact Or.inr ⟨v', by simp [hv'], rfl⟩

theorem mem_subst_cases {v : Str} {i rep x : Nat} (h : x ∈ subst v i rep) :
    x ∈ v ∨ x = rep := by
  unfold subst at h
  rcases List.mem_append.mp h with h | h
  · rcases List.mem_append.mp h with h | h
    · exact Or.inl (List.take_subset i v h)
    · exact Or.inr (List.mem_singleton.mp h)
  · exact Or.inl (List.drop_subset (i + 1) v h)

theorem expandLoop_invariant (map : Nat → Option Nat) (skip : Nat → Nat → Bool)
    (P : Str → Prop)
    (hsub : ∀ i ch rep v, map ch = some rep → P v → P (subst v i rep)) :
    ∀ (ps : List (Nat × Nat)) (vs : List Str), (∀ v ∈ vs, P v) →
      ∀ w ∈ expandLoop map skip ps vs, P w := by
  intro ps
  induction ps with
  | nil => intro vs hvs w hw; exact hvs w hw
  | cons p rest ih =>
    intro vs hvs w hw
    obtain ⟨i, ch⟩ := p
    unfold expandLoop at hw
    split at hw
    · exact ih vs hvs w hw
    · match hm : map ch with
      | some rep =>
        rw [hm] at hw
        refine ih _ ?_ w hw
        intro v hv
        rcases mem_expandPass_cases i rep vs vs v hv with h | ⟨v', hv', rfl⟩
        · exact hvs v h
        · exact hsub i ch rep v' hm (hvs v' hv')
      | none =>
        rw [hm] at hw
        exact ih vs hvs w hw

theorem expand_ambiguous_serialChars {t : Str}
    (ht : ∀ c ∈ t, isSerialChar c = true) :
    ∀ v ∈ expand_ambiguous t, ∀ c ∈ v, isSerialChar c = true := by
  intro v hv
  refine expandLoop_invariant AMBIGUOUS_MAP _ (fun w => ∀ c ∈ w, isSerialChar c = true)
    ?_ t.enum [t] ?_ v hv
  · intro i ch rep w hm hw c hc
    rcases mem_subst_cases hc with h | rfl
    · exact hw c h
    · exact ambmap_serial hm
  · intro w hw
    rw [List.mem_singleton.mp hw]
    exact ht

/-! ### Clean-string preservation through the expansion passes -/

theorem getLast?_drop_of_ne_nil {v : Str} {k : Nat} (h : v.drop k ≠ []) :
    (v.drop k).getLast? = v.getLast? := by
  rw [List.getLast?_drop, if_neg]
  intro hle
  exact h (List.drop_eq_nil_of_le hle)

theorem subst_clean {v : Str} {i rep : Nat} (hrep : isSerialChar rep = true)
    (hc : Clean v) : Clean (subst v i rep) := by
  obtain ⟨hl, h1, h2⟩ := hc
  refine ⟨?_, ?_, ?_⟩
  · intro x hx
    rcases mem_subst_cases hx with h | rfl
    · exact hl x h
    · exact serialChar_not_lower hrep
  · intro x hx
    cases v with
    | nil =>
      simp [subst] at hx
      rw [← hx]
      exact serialChar_not_space hrep
    | cons c t =>
      cases i with
      | zero =>
        simp [subst] at hx
        rw [← hx]
        exact serialChar_not_space hrep
      | succ j =>
        simp only [subst, List.take_succ_cons, List.cons_append, List.head?_cons,
          Option.some.injEq] at hx
        rw [← hx]
        exact h1 c rfl
  · intro x hx
    by_cases hd : v.drop (i + 1) = []
    · unfold subst at hx
      rw [hd, List.append_nil, List.getLast?_concat] at hx
      rw [← Option.some.inj hx]
      exact serialChar_not_space hrep
    · unfold subst at hx
      rw [List.getLast?_append_of_ne_nil _ hd, getLast?_drop_of_ne_nil hd] at hx
      exact h2 x hx

theorem mem_mapIdxFrom {f : Nat → Nat → Nat} {w : Nat} :
    ∀ (i : Nat) (v : Str), w ∈ mapIdxFrom f i v → ∃ j x, x ∈ v ∧ w = f j x := by
  intro i v
  induction v generalizing i with
  | nil => intro h; cases h
  | cons c t ih =>
    intro h
    rcases List.mem_cons.mp h with h | h
    · exact ⟨i, c, by simp, h⟩
    · obtain ⟨j, x, hx, rfl⟩ := ih (i + 1) h
      exact ⟨j, x, by simp [hx], rfl⟩

theorem mapIdxFrom_getLast {f : Nat → Nat → Nat} {x : Nat} :
    ∀ (i : Nat) (v : Str), (mapIdxFrom f i v).getLast? = some x →
      ∃ j y, v.getLast? = some y ∧ x = f j y := by
  intro i v
  induction v generalizing i with
  | nil => intro h; exact Option.noConfusion h
  | cons c t ih =>
    intro h
    cases t with
    | nil =>
      refine ⟨i, c, rfl, ?_⟩
      simpa [mapIdxFrom] using (Option.some.inj h).symm
    | cons d t' =>
      have : (mapIdxFrom f i (c :: d :: t')).getLast?
          = (mapIdxFrom f (i + 1) (d :: t')).getLast? := by
        simp [mapIdxFrom, List.getLast?_cons_cons]
      rw [this] at h
      obtain ⟨j, y, hy, rfl⟩ := ih (i + 1) h
      exact ⟨j, y, by rw [List.getLast?_cons_cons]; exact hy, rfl⟩

theorem applyPositionRules_clean {v : Str} (hc : Clean v) :
    Clean (applyPositionRules v) := by
  obtain ⟨hl, h1, h2⟩ := hc
  refine ⟨?_, ?_, ?_⟩
  · intro x hx
    obtain ⟨j, y, hy, rfl⟩ := mem_mapIdxFrom 0 v hx
    match hr : POSITION_RULES y j with
    | some r =>
      simp only [hr, Option.getD_some]
      exact serialChar_not_lower (posrules_serial hr)
    | none =>
      simp only [hr, Option.getD_none]
      exact hl y hy
  · intro x hx
    cases v with
    | nil => exact Option.noConfusion hx
    | cons c t =>
      simp only [applyPositionRules, mapIdxFrom, List.head?_cons, Option.some.injEq] at hx
      match hr : POSITION_RULES c 0 with
      | some r =>
        rw [hr] at hx
        rw [← hx]
        exact serialChar_not_space (posrules_serial hr)
      | none =>
        rw [hr] at hx
        rw [← hx]
        exact h1 c rfl
  · intro x hx
    obtain ⟨j, y, hy, rfl⟩ := mapIdxFrom_getLast 0 v hx
    match hr : POSITION_RULES y j with
    | some r =>
      simp only [hr, Option.getD_some]
      exact serialChar_not_space (posrules_serial hr)
    | none =>
      simp only [hr, Option.getD_none]
      exact h2 y hy

theorem mem_positionVariants {vs : List Str} {w : Str}
    (h : w ∈ positionVariantsOf vs) : ∃ v ∈ vs, w = applyPositionRules v := by
  unfold positionVariantsOf at h
  suffices H : ∀ (l acc : List Str), w ∈ l.foldl
      (fun acc v =>
        let pv := applyPositionRules v
        if pv ≠ v then insertAbsent acc pv else acc) acc →
      w ∈ acc ∨ ∃ v ∈ l, w = applyPositionRules v by
    rcases H vs [] h with h' | h'
    · cases h'
    · exact h'
  intro l
  induction l with
  | nil => intro acc h'; exact Or.inl h'
  | cons v rest ih =>
    intro acc h'
    rcases ih _ h' with h'' | ⟨v', hv', rfl⟩
    · simp only [] at h''
      split at h''
      · rcases mem_insertAbsent_cases h'' with h3 | h3
        · exact Or.inl h3
        · exact Or.inr ⟨v, by simp, h3⟩
      · exact Or.inl h''
    · exact Or.inr ⟨v', by simp [hv'], rfl⟩

theorem mem_foldl_insertAbsent_cases {w : Str} :
    ∀ (l acc : List Str), w ∈ l.foldl insertAbsent acc → w ∈ acc ∨ w ∈ l := by
  intro l
  induction l with
  | nil => intro acc h; exact Or.inl h
  | cons x rest ih =>
    intro acc h
    rcases ih _ h with h' | h'
    · rcases mem_insertAbsent_cases h' with h'' | h''
      · exact Or.inl h''
      · exact Or.inr (by simp [h''])
    · exact Or.inr (by simp [h'])

theorem expand_improved_clean {t : Str} {pa : Bool} (ht : Clean t) :
    ∀ v ∈ expand_ambiguous_improved t pa, Clean v := by
  intro v hv
  unfold expand_ambiguous_improved at hv
  have hloop : ∀ w ∈ expandLoop AMBIGUOUS_MAP_improved
      (fun i c => pa && t.length = 12 && (POSITION_RULES c i).isSome) t.enum [t],
      Clean w := by
    refine expandLoop_invariant _ _ Clean ?_ t.enum [t] ?_
    · intro i ch rep w hm hw
      exact subst_clean (ambmap_improved_serial hm) hw
    · intro w hw
      rw [List.mem_singleton.mp hw]
      exact ht
  simp only [] at hv
  split at hv
  · rcases mem_foldl_insertAbsent_cases _ _ hv with h | h
    · exact hloop v h
    · obtain ⟨v', hv', rfl⟩ := mem_positionVariants h
      exact applyPositionRules_clean (hloop v' hv')
  · exact hloop v hv

/-! ### The cleaned reader inputs are clean strings -/

theorem head_dropWhile {p : Nat → Bool} :
    ∀ (l : Str) (x : Nat), (l.dropWhile p).head? = some x → p x = false := by
  intro l
  induction l with
  | nil => intro x h; exact Option.noConfusion h
  | cons a t ih =>
    intro x h
    by_cases hp : p a
    · rw [List.dropWhile_cons_of_pos hp] at h
      exact ih x h
    · rw [List.dropWhile_cons_of_neg hp] at h
      rw [← Option.some.inj h]
      exact Bool.eq_false_iff.mpr hp

theorem getLast_dropWhile {p : Nat → Bool} :
    ∀ l : Str, l.dropWhile p ≠ [] → (l.dropWhile p).getLast? = l.getLast? := by
  intro l
  induction l with
  | nil => intro h; exact absurd rfl h
  | cons a t ih =>
    intro h
    by_cases hp : p a
    · rw [List.dropWhile_cons_of_pos hp] at h ⊢
      have ht : t ≠ [] := by
        intro ht
        rw [ht] at h
        exact h rfl
      cases t with
      | nil => exact absurd rfl ht
      | cons b t2 =>
        rw [List.getLast?_cons_cons]
        exact ih h
    · rw [List.dropWhile_cons_of_neg hp]

theorem pyStrip_headNotWs (t : Str) : HeadNotWs (pyStrip t) := by
  intro x hx
  unfold pyStrip at hx
  rw [List.head?_reverse] at hx
  by_cases hne : ((t.dropWhile isSpaceCh).reverse.dropWhile isSpaceCh) = []
  · rw [hne] at hx
    exact Option.noConfusion hx
  · rw [getLast_dropWhile _ hne, getLast?_reverse'] at hx
    exact head_dropWhile t x hx

theorem pyStrip_lastNotWs (t : Str) : LastNotWs (pyStrip t) := by
  intro x hx
  unfold pyStrip at hx
  rw [getLast?_reverse'] at hx
  exact head_dropWhile _ x hx

theorem headNotWs_map_upper {v : Str} (h : HeadNotWs v) : HeadNotWs (pyUpper v) := by
  intro x hx
  rw [pyUpper, List.head?_map] at hx
  obtain ⟨y, hy, rfl⟩ := Option.map_eq_some'.mp hx
  cases hq : isSpaceCh (upperChar y) with
  | false => rfl
  | true => exact absurd (h y hy) (by simp [upperChar_space hq])

theorem lastNotWs_map_upper {v : Str} (h : LastNotWs v) : LastNotWs (pyUpper v) := by
  intro x hx
  rw [pyUpper, List.getLast?_map] at hx
  obtain ⟨y, hy, rfl⟩ := Option.map_eq_some'.mp hx
  cases hq : isSpaceCh (upperChar y) with
  | false => rfl
  | true => exact absurd (h y hy) (by simp [upperChar_space hq])

theorem headNotWs_filter {v : Str} (h : HeadNotWs v) :
    HeadNotWs (v.filter (fun c => c ≠ 32)) := by
  cases v with
  | nil => intro x hx; exact Option.noConfusion hx
  | cons c t =>
    intro x hx
    have hc := h c rfl
    have hc32 : c ≠ 32 := by
      simp only [isSpaceCh, Bool.or_eq_false_iff, decide_eq_false_iff_not] at hc
      exact hc.1
    rw [List.filter_cons_of_pos (by simpa using hc32)] at hx
    rw [← Option.some.inj (by simpa using hx : some c = some x)]
    exact hc

theorem lastNotWs_filter {v : Str} (h : LastNotWs v) :
    LastNotWs (v.filter (fun c => c ≠ 32)) := by
  intro x hx
  have hx2 : ((v.reverse.filter (fun c => c ≠ 32))).head? = some x := by
    rw [List.filter_reverse, List.head?_reverse]
    exact hx
  have hrev : HeadNotWs v.reverse := by
    intro y hy
    rw [List.head?_reverse] at hy
    exact h y hy
  exact headNotWs_filter hrev x hx2

theorem cleanTextImproved_clean (t : Str) : Clean (cleanTextImproved t) := by
  refine ⟨?_, ?_, ?_⟩
  · intro x hx
    have hx' : x ∈ pyUpper (pyStrip t) := List.mem_of_mem_filter hx
    obtain ⟨y, _, rfl⟩ := List.mem_map.mp hx'
    exact upperChar_not_lower y
  · exact headNotWs_filter (headNotWs_map_upper (pyStrip_headNotWs t))
  · exact lastNotWs_filter (lastNotWs_map_upper (pyStrip_lastNotWs t))

/-! ### Soundness of the readers: every emitted serial is 12 valid chars -/

theorem read_serials_valid (min_confidence : ℚ) :
    ∀ rs : List RawResult, ∀ p ∈ read_serials_from_image min_confidence rs,
      ValidSerialStr p.1 := by
  intro rs
  induction rs with
  | nil => intro p hp; cases hp
  | cons r rest ih =>
    intro p hp
    unfold read_serials_from_image at hp
    simp only [] at hp
    split at hp
    · exact ih p hp
    · split at hp
      · exact ih p hp
      · split at hp
        · rcases List.mem_cons.mp hp with rfl | hp'
          · exact validSerial_of_clean
              (clean_of_serialChars (cleanText_serialChars r.text)) (by assumption)
          · exact ih p hp'
        · split at hp
          · next v hv =>
            rcases List.mem_cons.mp hp with rfl | hp'
            · refine validSerial_of_clean (clean_of_serialChars ?_) (List.find?_some hv)
              exact expand_ambiguous_serialChars (cleanText_serialChars r.text) v
                (List.mem_of_find?_eq_some hv)
            · exact ih p hp'
          · exact ih p hp

theorem read_serials_improved_valid (min_confidence : ℚ) :
    ∀ rs : List RawResult, ∀ p ∈ read_serials_from_image_improved min_confidence rs,
      ValidSerialStr p.1 := by
  intro rs
  induction rs with
  | nil => intro p hp; cases hp
  | cons r rest ih =>
    intro p hp
    unfold read_serials_from_image_improved at hp
    rcases List.mem_append.mp hp with hp' | hp'
    · obtain ⟨c, hc, rfl⟩ := List.mem_map.mp hp'
      have hcf := List.mem_filter.mp hc
      have hvalid : is_valid_apple_serial c = true := by
        have := hcf.2
        simp only [Bool.and_eq_true] at this
        exact this.1
      exact validSerial_of_clean
        (expand_improved_clean (cleanTextImproved_clean r.text) c hcf.1) hvalid
    · exact ih p hp'

/-- Every pair the resolver emits is one of its input hits. -/
theorem resolve_subset (norm : Str → Str) (hits : List Hit) :
    ∀ p ∈ resolve norm hits, p ∈ hits := by
  intro p hp
  obtain ⟨e, he, rfl⟩ := List.mem_map.mp hp
  exact ((aggregate_inv norm hits).2 e
    ((List.perm_insertionSort scoreGe (aggregate norm hits)).subset he)).1

/-! ### Scan-loop soundness (improved adapter) -/

theorem pyMaxBySnd_mem : ∀ (l : List Hit) (b : Hit), pyMaxBySnd b l ∈ b :: l := by
  intro l
  induction l with
  | nil => intro b; exact List.mem_singleton.mpr rfl
  | cons x rest ih =>
    intro b
    show pyMaxBySnd (if b.2 < x.2 then x else b) rest ∈ b :: x :: rest
    rcases List.mem_cons.mp (ih (if b.2 < x.2 then x else b)) with h | h
    · rw [h]
      split
      · exact List.mem_cons_of_mem _ (List.mem_cons_self _ _)
      · exact List.mem_cons_self _ _
    · exact List.mem_cons_of_mem _ (List.mem_cons_of_mem _ h)

theorem earlyHit_mem {enable : Bool} {early : ℚ} {res : List Hit} {best : Hit}
    (h : earlyHit enable early res = some best) : best ∈ res := by
  cases res with
  | nil => exact Option.noConfusion h
  | cons x t =>
    unfold earlyHit at h
    simp only [] at h
    split at h
    · rw [← Option.some.inj h]
      exact pyMaxBySnd_mem t x
    · exact Option.noConfusion h

theorem scanAngles_valid {PImg : Type} (C : Collab PImg) (ep : EngineParams)
    (minc early : ℚ) (enable : Bool) (r ri : PImg) :
    ∀ (angles : List Int) (acc : List Hit), (∀ p ∈ acc, ValidSerialStr p.1) →
      (∀ res, scanAngles C ep minc early enable r ri angles acc = Sum.inl res →
        ∀ p ∈ res, ValidSerialStr p.1) ∧
      (∀ best, scanAngles C ep minc early enable r ri angles acc = Sum.inr best →
        ValidSerialStr best.1) := by
  intro angles
  induction angles with
  | nil =>
    intro acc hacc
    constructor
    · intro res h p hp
      exact hacc p (Sum.inl.inj h ▸ hp)
    · intro best h
      exact Sum.noConfusion h
  | cons ang rest ih =>
    intro acc hacc
    have hreadR := read_serials_improved_valid minc (C.engine ep (C.rotate ang r))
    have hreadI := read_serials_improved_valid minc (C.engine ep (C.rotate ang ri))
    have hstep : ∀ q ∈ acc ++ read_serials_from_image_improved minc (C.engine ep (C.rotate ang r))
        ++ read_serials_from_image_improved minc (C.engine ep (C.rotate ang ri)),
        ValidSerialStr q.1 := by
      intro q hq
      rcases List.mem_append.mp hq with hq' | hq'
      · rcases List.mem_append.mp hq' with hq'' | hq''
        · exact hacc q hq''
        · exact hreadR q hq''
      · exact hreadI q hq'
    constructor
    · intro res h p hp
      unfold scanAngles at h
      simp only [] at h
      cases hE : earlyHit enable early
          (read_serials_from_image_improved minc (C.engine ep (C.rotate ang r))) with
      | some best => rw [hE] at h; exact Sum.noConfusion h
      | none =>
        rw [hE] at h
        cases hE2 : earlyHit enable early
            (read_serials_from_image_improved minc (C.engine ep (C.rotate ang ri))) with
        | some best => rw [hE2] at h; exact Sum.noConfusion h
        | none =>
          rw [hE2] at h
          exact (ih _ hstep).1 res h p hp
    · intro best h
      unfold scanAngles at h
      simp only [] at h
      cases hE : earlyHit enable early
          (read_serials_from_image_improved minc (C.engine ep (C.rotate ang r))) with
      | some best' =>
        rw [hE] at h
        rw [← Sum.inr.inj h]
        exact hreadR best' (earlyHit_mem hE)
      | none =>
        rw [hE] at h
        cases hE2 : earlyHit enable early
            (read_serials_from_image_improved minc (C.engine ep (C.rotate ang ri))) with
        | some best' =>
          rw [hE2] at h
          rw [← Sum.inr.inj h]
          exact hreadI best' (earlyHit_mem hE2)
        | none =>
          rw [hE2] at h
          exact (ih _ hstep).2 best h

theorem scanRegions_valid {PImg : Type} (C : Collab PImg) (ep : EngineParams)
    (minc early : ℚ) (enable : Bool) (angles : List Int) :
    ∀ (pairs : List (PImg × PImg)) (acc : List Hit), (∀ p ∈ acc, ValidSerialStr p.1) →
      (∀ res, scanRegions C ep minc early enable angles pairs acc = Sum.inl res →
        ∀ p ∈ res, ValidSerialStr p.1) ∧
      (∀ best, scanRegions C ep minc early enable angles pairs acc = Sum.inr best →
        ValidSerialStr best.1) := by
  intro pairs
  induction pairs with
  | nil =>
    intro acc hacc
    constructor
    · intro res h p hp
      exact hacc p (Sum.inl.inj h ▸ hp)
    · intro best h
      exact Sum.noConfusion h
  | cons pr rest ih =>
    intro acc hacc
    have hA := scanAngles_valid C ep minc early enable pr.1 pr.2 angles acc hacc
    constructor
    · intro res h p hp
      unfold scanRegions at h
      cases hS : scanAngles C ep minc early enable pr.1 pr.2 angles acc with
      | inr best => rw [hS] at h; exact Sum.noConfusion h
      | inl acc' =>
        rw [hS] at h
        exact (ih acc' (hA.1 acc' hS)).1 res h p hp
    · intro best h
      unfold scanRegions at h
      cases hS : scanAngles C ep minc early enable pr.1 pr.2 angles acc with
      | inr best' =>
        rw [hS] at h
        rw [← Sum.inr.inj h]
        exact hA.2 best' hS
      | inl acc' =>
        rw [hS] at h
        exact (ih acc' (hA.1 acc' hS)).2 best h

/-- C1: every `(serial, confidence)` pair returned by `extract_serials` —
in the base adapter and in the improved one, for every image input,
collaborator behaviour and parameter setting — has a serial that passes
the format validator and is itself exactly 12 characters of `A-Z0-9`. -/
theorem C1_extract_output_valid {PImg : Type} (C : Collab PImg)
    (image_bytes : Bytes) (pb : BaseParams) (pi : ImprovedParams) :
    (∀ out, extract_serials_base C image_bytes pb = Except.ok out →
      ∀ p ∈ out, ValidSerialStr p.1) ∧
    (∀ out, extract_serials_improved C image_bytes pi = Except.ok out →
      ∀ p ∈ out, ValidSerialStr p.1) := by
  constructor
  · intro out hout p hp
    unfold extract_serials_base at hout
    cases hdec : preprocess_image C image_bytes pb.pre with
    | error e => rw [hdec] at hout; exact Except.noConfusion hout
    | ok processed =>
      rw [hdec] at hout
      simp only [] at hout
      have hmem := resolve_subset normalize_ambiguous _ p ((Except.ok.inj hout) ▸ hp)
      obtain ⟨m, hm, hpm⟩ := List.mem_flatten.mp hmem
      obtain ⟨reg, _, rfl⟩ := List.mem_map.mp hm
      obtain ⟨m2, hm2, hpm2⟩ := List.mem_flatten.mp hpm
      obtain ⟨ang, _, rfl⟩ := List.mem_map.mp hm2
      rcases List.mem_append.mp hpm2 with h | h
      · exact read_serials_valid pb.min_confidence _ p h
      · exact read_serials_valid pb.min_confidence _ p h
  · intro out hout p hp
    unfold extract_serials_improved at hout
    cases hdec : preprocess_image C image_bytes pi.pre with
    | error e => rw [hdec] at hout; exact Except.noConfusion hout
    | ok processed =>
      rw [hdec] at hout
      simp only [] at hout
      cases hS : scanRegions C ⟨pi.low_text, pi.text_threshold, pi.magnification⟩
          pi.min_confidence pi.early_stop_confidence pi.enable_early_stop
          (improved_rotation_angles pi.smart_rotation pi.try_rotations pi.fine_rotation
            (C.detectOrient (((regions_to_scan_improved pi.roi
              (C.projBands ⟨pi.roi_top_k, pi.roi_pad, pi.adaptive_pad⟩ processed)).map
              (regionCrop C (C.toRGB processed) (C.invertRGB processed))).headD
                (C.toRGB processed, C.invertRGB processed)).1))
          ((regions_to_scan_improved pi.roi
            (C.projBands ⟨pi.roi_top_k, pi.roi_pad, pi.adaptive_pad⟩ processed)).map
            (regionCrop C (C.toRGB processed) (C.invertRGB processed))) [] with
      | inr best =>
        rw [hS] at hout
        have hpb : p = best := by
          have h1 := Except.ok.inj hout
          rw [← h1] at hp
          exact List.mem_singleton.mp hp
        rw [hpb]
        refine (scanRegions_valid C _ _ _ _ _ _ _ ?_).2 best hS
        intro q hq
        cases hq
      | inl hits =>
        rw [hS] at hout
        have hmem := resolve_subset (fun s => normalize_ambiguous_improved s true) _ p
          ((Except.ok.inj hout) ▸ hp)
        refine (scanRegions_valid C _ _ _ _ _ _ _ ?_).1 hits hS p hmem
        intro q hq
        cases hq

/-- C1 witness: evaluating both extractors on a one-point collaborator
whose engine reports `C02Y95A8JG5H` at confidence 1. -/
theorem C1_extract_output_valid_witness :
    ValidSerialStr (codes ['C','0','2','Y','9','5','A','8','J','G','5','H']) := by
  exact (C1_extract_output_valid
      (constCollab (some ()) [⟨codes ['C','0','2','Y','9','5','A','8','J','G','5','H'], 1⟩])
      [] {} {}).1
    [(codes ['C','0','2','Y','9','5','A','8','J','G','5','H'], 1)] (by rfl)
    (codes ['C','0','2','Y','9','5','A','8','J','G','5','H'], 1) (by decide)

/-- C4: the pipeline raises the decode error exactly on inputs the decoder
rejects; on decodable inputs both extractors return a (possibly empty)
candidate list and no error. -/
theorem C4_decode_error_behaviour {PImg : Type} (C : Collab PImg)
    (image_bytes : Bytes) (pb : BaseParams) (pi : ImprovedParams) :
    (C.decode image_bytes = none →
      preprocess_image C image_bytes pb.pre = Except.error DecodeError.invalidImageData ∧
      extract_serials_base C image_bytes pb = Except.error DecodeError.invalidImageData ∧
      extract_serials_improved C image_bytes pi = Except.error DecodeError.invalidImageData) ∧
    (∀ img, C.decode image_bytes = some img →
      preprocess_image C image_bytes pb.pre = Except.ok (C.enhance pb.pre img) ∧
      (∃ l, extract_serials_base C image_bytes pb = Except.ok l) ∧
      (∃ l, extract_serials_improved C image_bytes pi = Except.ok l)) := by
  constructor
  · intro hdec
    have hpre : ∀ pre, preprocess_image C image_bytes pre
        = Except.error DecodeError.invalidImageData := by
      intro pre
      unfold preprocess_image
      rw [hdec]
    refine ⟨hpre pb.pre, ?_, ?_⟩
    · unfold extract_serials_base
      rw [hpre pb.pre]
    · unfold extract_serials_improved
      rw [hpre pi.pre]
  · intro img hdec
    have hpre : ∀ pre, preprocess_image C image_bytes pre
        = Except.ok (C.enhance pre img) := by
      intro pre
      unfold preprocess_image
      rw [hdec]
    refine ⟨hpre pb.pre, ?_, ?_⟩
    · unfold extract_serials_base
      rw [hpre pb.pre]
      exact ⟨_, rfl⟩
    · unfold extract_serials_improved
      rw [hpre pi.pre]
      exact ⟨_, rfl⟩

/-- C4 witness: the theorem applied to an undecodable input and to a
decodable one over the one-point collaborator. -/
theorem C4_decode_error_behaviour_witness :
    extract_serials_base (constCollab none []) [] {} =
      Except.error DecodeError.invalidImageData ∧
    (∃ l, extract_serials_base (constCollab (some ()) []) [] {} = Except.ok l) := by
  refine ⟨((C4_decode_error_behaviour (constCollab none []) [] {} {}).1 rfl).2.1, ?_⟩
  exact ((C4_decode_error_behaviour (constCollab (some ()) []) [] {} {}).2 () rfl).2.1

/-- C5: with ROI mode on and the row-projection heuristic reporting zero
bands, both adapters fall back to the full frame as the sole region; in
every configuration the region list is non-empty, so the recogniser is
invoked on at least one region. -/
theorem C5_full_frame_fallback :
    (∀ (keyword_crop : Bool) (kw : List (Nat × Nat × Nat × Nat)) (zoom_strips h : Nat),
      regions_to_scan_base true keyword_crop [] kw zoom_strips h = [Region.fullFrame]) ∧
    regions_to_scan_improved true [] = [Region.fullFrame] ∧
    (∀ (roi keyword_crop : Bool) (bands : List (Nat × Nat))
        (kw : List (Nat × Nat × Nat × Nat)) (zoom_strips h : Nat),
      0 < (regions_to_scan_base roi keyword_crop bands kw zoom_strips h).length) ∧
    (∀ (roi : Bool) (bands : List (Nat × Nat)),
      0 < (regions_to_scan_improved roi bands).length) := by
  refine ⟨?_, ?_, ?_, ?_⟩
  · intro keyword_crop kw zoom_strips h
    simp [regions_to_scan_base]
  · simp [regions_to_scan_improved]
  · intro roi keyword_crop bands kw zoom_strips h
    unfold regions_to_scan_base
    split
    · simp only []
      split
      · simp
      · next hne => exact List.length_pos.mpr hne
    · simp only []
      split
      · split
        · split <;> simp
        · split <;> simp
      · simp
  · intro roi bands
    unfold regions_to_scan_improved
    split
    · simp only []
      split
      · simp
      · next hne => exact List.length_pos.mpr hne
    · simp

/-! ### Duplicate-freeness of stage outputs and merged-pool length -/

theorem resolve_fst_nodup (norm : Str → Str) (hits : List Hit) :
    ((resolve norm hits).map Prod.fst).Nodup := by
  have hperm : List.Perm (rankedEntries norm hits) (aggregate norm hits) :=
    List.perm_insertionSort scoreGe (aggregate norm hits)
  have hkeys : ((rankedEntries norm hits).map Entry.key).Nodup :=
    ((hperm.map Entry.key).nodup_iff).mpr (aggregate_keys_nodup norm hits)
  have hmapped : (resolve norm hits).map Prod.fst
      = (rankedEntries norm hits).map (fun e => e.best) := by
    simp [resolve, List.map_map]
  rw [hmapped]
  refine List.Nodup.map_on ?_ (rankedEntries_nodup norm hits)
  intro e1 h1 e2 h2 hbest
  have hk1 := ((aggregate_inv norm hits).2 e1 (hperm.mem_iff.mp h1)).2.1
  have hk2 := ((aggregate_inv norm hits).2 e2 (hperm.mem_iff.mp h2)).2.1
  have hkeq : e1.key = e2.key := by rw [← hk1, ← hk2, hbest]
  exact List.inj_on_of_nodup_map hkeys h1 h2 hkeq

theorem extract_improved_fst_nodup {PImg : Type} (C : Collab PImg)
    (b : Bytes) (p : ImprovedParams) (l : List Hit)
    (h : extract_serials_improved C b p = Except.ok l) :
    (l.map Prod.fst).Nodup := by
  unfold extract_serials_improved at h
  cases hdec : preprocess_image C b p.pre with
  | error e => rw [hdec] at h; exact Except.noConfusion h
  | ok processed =>
    rw [hdec] at h
    simp only [] at h
    cases hS : scanRegions C ⟨p.low_text, p.text_threshold, p.magnification⟩
        p.min_confidence p.early_stop_confidence p.enable_early_stop
        (improved_rotation_angles p.smart_rotation p.try_rotations p.fine_rotation
          (C.detectOrient (((regions_to_scan_improved p.roi
            (C.projBands ⟨p.roi_top_k, p.roi_pad, p.adaptive_pad⟩ processed)).map
            (regionCrop C (C.toRGB processed) (C.invertRGB processed))).headD
              (C.toRGB processed, C.invertRGB processed)).1))
        ((regions_to_scan_improved p.roi
          (C.projBands ⟨p.roi_top_k, p.roi_pad, p.adaptive_pad⟩ processed)).map
          (regionCrop C (C.toRGB processed) (C.invertRGB processed))) [] with
    | inr best =>
      rw [hS] at h
      rw [← Except.ok.inj h]
      simp
    | inl hits =>
      rw [hS] at h
      rw [← Except.ok.inj h]
      exact resolve_fst_nodup _ hits

theorem mergeAdd_fst (acc : List Hit) (h : Hit) :
    (mergeAdd acc h).map Prod.fst =
      if h.1 ∈ acc.map Prod.fst then acc.map Prod.fst
      else acc.map Prod.fst ++ [h.1] := by
  induction acc with
  | nil => simp [mergeAdd]
  | cons p rest ih =>
    obtain ⟨s, c⟩ := p
    by_cases hs : s = h.1
    · simp [mergeAdd, hs]
    · simp only [mergeAdd, if_neg hs, List.map_cons, ih]
      by_cases hm : h.1 ∈ rest.map Prod.fst
      · rw [if_pos hm, if_pos (List.mem_cons_of_mem _ hm)]
      · have hnotc : h.1 ∉ (s, c).1 :: rest.map Prod.fst := by
          intro hcon
          rcases List.mem_cons.mp hcon with h1 | h1
          · exact hs h1.symm
          · exact hm h1
        rw [if_neg hm, if_neg hnotc]
        simp

theorem tessAdd_fst (acc : List Hit) (h : Hit) :
    (tessAdd acc h).map Prod.fst =
      if h.1 ∈ acc.map Prod.fst then acc.map Prod.fst
      else acc.map Prod.fst ++ [h.1] := by
  induction acc with
  | nil => simp [tessAdd]
  | cons p rest ih =>
    obtain ⟨s, c⟩ := p
    by_cases hs : s = h.1
    · by_cases hc : c < h.2 <;> simp [tessAdd, hs, hc]
    · simp only [tessAdd, if_neg hs, List.map_cons, ih]
      by_cases hm : h.1 ∈ rest.map Prod.fst
      · rw [if_pos hm, if_pos (List.mem_cons_of_mem _ hm)]
      · have hnotc : h.1 ∉ (s, c).1 :: rest.map Prod.fst := by
          intro hcon
          rcases List.mem_cons.mp hcon with h1 | h1
          · exact hs h1.symm
          · exact hm h1
        rw [if_neg hm, if_neg hnotc]
        simp

theorem foldl_mergeAdd_fst_nodup :
    ∀ (results acc : List Hit), (acc.map Prod.fst).Nodup →
      ((results.foldl mergeAdd acc).map Prod.fst).Nodup := by
  intro results
  induction results with
  | nil => intro acc h; exact h
  | cons r rest ih =>
    intro acc h
    show ((rest.foldl mergeAdd (mergeAdd acc r)).map Prod.fst).Nodup
    apply ih
    rw [mergeAdd_fst]
    split
    · exact h
    · next hm =>
      refine h.append (List.nodup_singleton _) ?_
      intro a ha hb
      rw [List.mem_singleton.mp hb] at ha
      exact hm ha

theorem foldl_tessAdd_fst_nodup :
    ∀ (results acc : List Hit), (acc.map Prod.fst).Nodup →
      ((results.foldl tessAdd acc).map Prod.fst).Nodup := by
  intro results
  induction results with
  | nil => intro acc h; exact h
  | cons r rest ih =>
    intro acc h
    show ((rest.foldl tessAdd (tessAdd acc r)).map Prod.fst).Nodup
    apply ih
    rw [tessAdd_fst]
    split
    · exact h
    · next hm =>
      refine h.append (List.nodup_singleton _) ?_
      intro a ha hb
      rw [List.mem_singleton.mp hb] at ha
      exact hm ha

theorem sortHitsDesc_length (l : List Hit) : (sortHitsDesc l).length = l.length :=
  (List.perm_insertionSort hitGe l).length_eq

theorem sortHitsDesc_fst_nodup {l : List Hit} (h : (l.map Prod.fst).Nodup) :
    ((sortHitsDesc l).map Prod.fst).Nodup :=
  (((List.perm_insertionSort hitGe l).map Prod.fst).nodup_iff).mpr h

theorem tess_fst_nodup (available : Bool) (cands : List Hit) :
    ((extract_serials_with_tesseract available cands).map Prod.fst).Nodup := by
  unfold extract_serials_with_tesseract
  split
  · exact sortHitsDesc_fst_nodup (foldl_tessAdd_fst_nodup cands [] (by simp))
  · simp

theorem foldl_mergeAdd_fst_toFinset :
    ∀ (results acc : List Hit),
      ((results.foldl mergeAdd acc).map Prod.fst).toFinset
        = (acc.map Prod.fst).toFinset ∪ (results.map Prod.fst).toFinset := by
  intro results
  induction results with
  | nil => intro acc; simp
  | cons r rest ih =>
    intro acc
    show ((rest.foldl mergeAdd (mergeAdd acc r)).map Prod.fst).toFinset = _
    rw [ih, mergeAdd_fst]
    split
    · next hm =>
      ext a
      simp only [Finset.mem_union, List.mem_toFinset, List.map_cons, List.mem_cons]
      constructor
      · rintro (h1 | h1)
        · exact Or.inl h1
        · exact Or.inr (Or.inr h1)
      · rintro (h1 | h1 | h1)
        · exact Or.inl h1
        · rw [h1]; exact Or.inl hm
        · exact Or.inr h1
    · ext a
      simp only [Finset.mem_union, List.mem_toFinset, List.mem_append,
        List.mem_singleton, List.map_cons, List.mem_cons]
      tauto

theorem foldl_mergeAdd_length (results : List Hit) :
    (results.foldl mergeAdd []).length = ((results.map Prod.fst).toFinset).card := by
  have hnd := foldl_mergeAdd_fst_nodup results [] (by simp)
  have hts := foldl_mergeAdd_fst_toFinset results []
  have h1 : (results.foldl mergeAdd []).length
      = ((results.foldl mergeAdd []).map Prod.fst).length := by
    rw [List.length_map]
  rw [h1, ← List.toFinset_card_of_nodup hnd, hts]
  simp

theorem merge_length (results : List Hit) (hne : results ≠ []) :
    (merge_and_deduplicate_results results).length
      = ((results.map Prod.fst).toFinset).card := by
  unfold merge_and_deduplicate_results
  rw [if_neg hne, sortHitsDesc_length, List.length_map, foldl_mergeAdd_length]

theorem length_le_merge (results L : List Hit) (hsub : ∀ x ∈ L, x ∈ results)
    (hnd : (L.map Prod.fst).Nodup) :
    L.length ≤ (merge_and_deduplicate_results results).length := by
  by_cases hne : results = []
  · subst hne
    have hL : L = [] := List.eq_nil_iff_forall_not_mem.mpr
      (fun x hx => (List.not_mem_nil x) (hsub x hx))
    rw [hL]
    exact Nat.zero_le _
  · rw [merge_length results hne]
    calc L.length = (L.map Prod.fst).length := by rw [List.length_map]
      _ = (L.map Prod.fst).toFinset.card := (List.toFinset_card_of_nodup hnd).symm
      _ ≤ ((results.map Prod.fst).toFinset).card := by
          refine Finset.card_le_card ?_
          intro a ha
          rw [List.mem_toFinset] at ha ⊢
          obtain ⟨x, hx, rfl⟩ := List.mem_map.mp ha
          exact List.mem_map_of_mem _ (hsub x hx)

theorem length_le_flatten {L : List Hit} {tr : List (List Hit)} (h : L ∈ tr) :
    L.length ≤ tr.flatten.length := by
  rw [List.length_flatten]
  exact List.single_le_sum (fun x _ => Nat.zero_le x) _
    (List.mem_map_of_mem List.length h)

/-! ### The controller invariant, stage by stage -/

theorem goodState_init : GoodState ⟨[], [], 0⟩ :=
  ⟨rfl, by intro L h; cases h⟩

theorem goodState_bumpT {st : PState} (h : GoodState st) : GoodState (bumpT st) := h

theorem goodState_addStage {st : PState} {l : List Hit} (h : GoodState st)
    (hnd : (l.map Prod.fst).Nodup) : GoodState (addStage st l) := by
  constructor
  · show st.all ++ l = (st.trace ++ [l]).flatten
    rw [List.flatten_append, h.1]
    simp
  · intro L hL
    rcases List.mem_append.mp hL with h1 | h1
    · exact h.2 L h1
    · rw [List.mem_singleton.mp h1]
      exact hnd

theorem goodAnswer_all {st : PState} (h : GoodState st) :
    GoodAnswer (st.all, st.trace) := by
  intro L hL
  show L.length ≤ st.all.length
  rw [h.1]
  exact length_le_flatten hL

theorem goodAnswer_sorted {st : PState} (h : GoodState st) :
    GoodAnswer (sortHitsDesc st.all, st.trace) := by
  intro L hL
  show L.length ≤ (sortHitsDesc st.all).length
  rw [sortHitsDesc_length, h.1]
  exact length_le_flatten hL

theorem goodAnswer_merge {st : PState} (h : GoodState st) :
    GoodAnswer (merge_and_deduplicate_results st.all, st.trace) := by
  intro L hL
  refine length_le_merge st.all L ?_ (h.2 L hL)
  intro x hx
  rw [h.1]
  exact List.mem_flatten.mpr ⟨L, hL, hx⟩

theorem runYoloCrops_good {PImg : Type} (C : Collab PImg) (minc early : ℚ) :
    ∀ (crops : List PImg) (st st' : PState), GoodState st →
      runYoloCrops C minc early crops st = Except.ok st' → GoodState st' := by
  intro crops
  induction crops with
  | nil =>
    intro st st' hst h
    unfold runYoloCrops at h
    rw [← Except.ok.inj h]
    exact hst
  | cons crop rest ih =>
    intro st st' hst h
    unfold runYoloCrops at h
    cases hE : extract_serials_improved C (C.encodeCrop crop) (yoloCropParams minc early) with
    | error e => rw [hE] at h; exact Except.noConfusion h
    | ok l =>
      rw [hE] at h
      exact ih _ st' (goodState_addStage hst (extract_improved_fst_nodup _ _ _ _ hE)) h

theorem stageYolo_good {PImg : Type} (C : Collab PImg) (b : Bytes) (pp : ProgParams)
    (r : Answer ⊕ PState) (h : stageYolo C b pp = Except.ok r) : GoodStep r := by
  unfold stageYolo at h
  simp only [] at h
  cases hR : runYoloCrops C pp.min_confidence pp.early_stop_confidence
      (if pp.use_yolo_roi then C.yoloDetect b else []) ⟨[], [], 0⟩ with
  | error e => rw [hR] at h; exact Except.noConfusion h
  | ok st =>
    rw [hR] at h
    simp only [] at h
    have hst : GoodState st :=
      runYoloCrops_good C _ _ _ ⟨[], [], 0⟩ st goodState_init hR
    split at h
    · rw [← Except.ok.inj h]
      exact goodAnswer_sorted hst
    · rw [← Except.ok.inj h]
      exact hst

theorem stageFast_good {PImg : Type} (C : Collab PImg) (b : Bytes) (pp : ProgParams)
    (elapsed : Nat → ℚ) (st : PState) (r : Answer ⊕ PState) (hst : GoodState st)
    (h : stageFast C b pp elapsed st = Except.ok r) : GoodStep r := by
  unfold stageFast at h
  cases hE : extract_serials_improved C b
      (stage1Params pp.min_confidence pp.early_stop_confidence) with
  | error e => rw [hE] at h; exact Except.noConfusion h
  | ok l1 =>
    rw [hE] at h
    simp only [] at h
    have hst1 : GoodState (addStage st l1) :=
      goodState_addStage hst (extract_improved_fst_nodup _ _ _ _ hE)
    split at h
    · rw [← Except.ok.inj h]
      exact goodAnswer_sorted hst1
    · split at h
      · rw [← Except.ok.inj h]
        exact goodAnswer_all hst1
      · rw [← Except.ok.inj h]
        exact goodState_bumpT hst1

theorem stageMediumInv_good {PImg : Type} (C : Collab PImg) (b : Bytes)
    (pp : ProgParams) (st : PState) (r : Answer ⊕ PState) (hst : GoodState st)
    (h : stageMediumInv C b pp st = Except.ok r) : GoodStep r := by
  unfold stageMediumInv at h
  split at h
  · cases hE : extract_serials_improved C b
        (stage2InvParams pp.min_confidence pp.early_stop_confidence) with
    | error e => rw [hE] at h; exact Except.noConfusion h
    | ok l =>
      rw [hE] at h
      simp only [] at h
      have hst1 : GoodState (addStage st l) :=
        goodState_addStage hst (extract_improved_fst_nodup _ _ _ _ hE)
      split at h
      · rw [← Except.ok.inj h]
        exact goodAnswer_sorted hst1
      · rw [← Except.ok.inj h]
        exact hst1
  · rw [← Except.ok.inj h]
    exact hst

theorem stageMediumEnh_good {PImg : Type} (C : Collab PImg) (b : Bytes)
    (pp : ProgParams) (elapsed : Nat → ℚ) (st : PState) (r : Answer ⊕ PState)
    (hst : GoodState st) (h : stageMediumEnh C b pp elapsed st = Except.ok r) :
    GoodStep r := by
  unfold stageMediumEnh at h
  cases hE : extract_serials_improved C b
      (stage2EnhParams pp.min_confidence pp.early_stop_confidence) with
  | error e => rw [hE] at h; exact Except.noConfusion h
  | ok l2 =>
    rw [hE] at h
    simp only [] at h
    have hst1 : GoodState (addStage st l2) :=
      goodState_addStage hst (extract_improved_fst_nodup _ _ _ _ hE)
    split at h
    · rw [← Except.ok.inj h]
      exact goodAnswer_sorted hst1
    · split at h
      · rw [← Except.ok.inj h]
        exact goodAnswer_all hst1
      · rw [← Except.ok.inj h]
        exact goodState_bumpT hst1

theorem stageMedium_good {PImg : Type} (C : Collab PImg) (b : Bytes)
    (pp : ProgParams) (elapsed : Nat → ℚ) (st : PState) (r : Answer ⊕ PState)
    (hst : GoodState st) (h : stageMedium C b pp elapsed st = Except.ok r) :
    GoodStep r := by
  unfold stageMedium at h
  cases hI : stageMediumInv C b pp st with
  | error e => rw [hI] at h; exact Except.noConfusion h
  | ok r1 =>
    rw [hI] at h
    have hG1 : GoodStep r1 := stageMediumInv_good C b pp st r1 hst hI
    cases r1 with
    | inl a =>
      rw [← Except.ok.inj h]
      exact hG1
    | inr st1 =>
      exact stageMediumEnh_good C b pp elapsed st1 r hG1 h

theorem scaleLoop_good {PImg : Type} (C : Collab PImg) (b : Bytes)
    (pp : ProgParams) (elapsed : Nat → ℚ) :
    ∀ (scales : List ℚ) (st st' : PState), GoodState st →
      scaleLoop C b pp elapsed scales st = Except.ok st' → GoodState st' := by
  intro scales
  induction scales with
  | nil =>
    intro st st' hst h
    unfold scaleLoop at h
    rw [← Except.ok.inj h]
    exact hst
  | cons scale rest ih =>
    intro st st' hst h
    unfold scaleLoop at h
    split at h
    · exact ih st st' hst h
    · split at h
      · rw [← Except.ok.inj h]
        exact goodState_bumpT hst
      · cases hE : extract_serials_improved C b
            (stage3Params pp.min_confidence pp.early_stop_confidence scale) with
        | error e => rw [hE] at h; exact Except.noConfusion h
        | ok l =>
          rw [hE] at h
          simp only [] at h
          have hst1 : GoodState (addStage (bumpT st) l) :=
            goodState_addStage (goodState_bumpT hst)
              (extract_improved_fst_nodup _ _ _ _ hE)
          split at h
          · rw [← Except.ok.inj h]
            exact hst1
          · exact ih _ st' hst1 h

theorem stageFull_good {PImg : Type} (C : Collab PImg) (b : Bytes)
    (pp : ProgParams) (elapsed : Nat → ℚ) (st : PState) (r : Answer ⊕ PState)
    (hst : GoodState st) (h : stageFull C b pp elapsed st = Except.ok r) :
    GoodStep r := by
  unfold stageFull at h
  cases hE : extract_serials_improved C b
      (stage3Params pp.min_confidence pp.early_stop_confidence 3) with
  | error e => rw [hE] at h; exact Except.noConfusion h
  | ok l3 =>
    rw [hE] at h
    simp only [] at h
    have hst1 : GoodState (addStage st l3) :=
      goodState_addStage hst (extract_improved_fst_nodup _ _ _ _ hE)
    split at h
    · rw [← Except.ok.inj h]
      exact goodAnswer_sorted hst1
    · split at h
      · cases hS : scaleLoop C b pp elapsed [2, 3, 4, 5] (addStage st l3) with
        | error e => rw [hS] at h; exact Except.noConfusion h
        | ok st2 =>
          rw [hS] at h
          rw [← Except.ok.inj h]
          exact scaleLoop_good C b pp elapsed _ _ st2 hst1 hS
      · rw [← Except.ok.inj h]
        exact hst1

theorem stageMergeCheck_good (pp : ProgParams) (elapsed : Nat → ℚ) (st : PState)
    (r : Answer ⊕ PState) (hst : GoodState st)
    (h : stageMergeCheck pp elapsed st = r) : GoodStep r := by
  unfold stageMergeCheck at h
  simp only [] at h
  split at h
  · rw [← h]
    exact goodAnswer_merge hst
  · split at h
    · rw [← h]
      exact goodAnswer_merge hst
    · rw [← h]
      exact goodState_bumpT hst

theorem attemptLoop_good {PImg : Type} (C : Collab PImg) (b : Bytes)
    (pp : ProgParams) :
    ∀ (pres : List PreParams) (st : PState), GoodState st →
      GoodState (attemptLoop C b pp pres st) := by
  intro pres
  induction pres with
  | nil =>
    intro st h
    exact h
  | cons pre rest ih =>
    intro st h
    unfold attemptLoop
    cases hE : extract_serials_improved C b
        (stage4Params pp.min_confidence pp.early_stop_confidence pre) with
    | error e => exact ih st h
    | ok l =>
      show GoodState (if l = [] then attemptLoop C b pp rest st else addStage st l)
      split
      · exact ih st h
      · exact goodState_addStage h (extract_improved_fst_nodup _ _ _ _ hE)

theorem stageTess_good {PImg : Type} (C : Collab PImg) (b : Bytes)
    (pp : ProgParams) (st : PState) (hst : GoodState st) :
    GoodState (stageTess C b pp st) := by
  unfold stageTess
  cases hP : preprocess_image C b tessPre with
  | error e => exact hst
  | ok processed =>
    show GoodState (if extract_serials_with_tesseract pp.tesseract_available
        (C.tessCandidates (C.toRGB processed)) = [] then st
      else addStage st (extract_serials_with_tesseract pp.tesseract_available
        (C.tessCandidates (C.toRGB processed))))
    split
    · exact hst
    · exact goodState_addStage hst (tess_fst_nodup _ _)

theorem stageFallback_good {PImg : Type} (C : Collab PImg) (b : Bytes)
    (pp : ProgParams) (st : PState) (hst : GoodState st) :
    GoodState (stageFallback C b pp st) := by
  unfold stageFallback
  split
  · simp only []
    have hstI : GoodState (if pp.fallback_strategy = FallbackStrategy.hybrid
        ∨ pp.fallback_strategy = FallbackStrategy.easyocr_only then
          attemptLoop C b pp fallbackAttempts st else st) := by
      split
      · exact attemptLoop_good C b pp fallbackAttempts st hst
      · exact hst
    split
    · exact stageTess_good C b pp _ hstI
    · exact hstI
  · exact hst

/-- C8: on every return path of the progressive controller (early-stop,
timeout, or full run with merge/deduplication), the returned candidate
list is at least as long as every candidate list an individual stage
invocation produced for the same request. -/
theorem C8_controller_dominates_stages {PImg : Type} (C : Collab PImg)
    (image_bytes : Bytes) (pp : ProgParams) (elapsed : Nat → ℚ) (ans : Answer)
    (h : progressive_process C image_bytes pp elapsed = Except.ok ans) :
    ∀ L ∈ ans.2, L.length ≤ ans.1.length := by
  unfold progressive_process at h
  cases hY : stageYolo C image_bytes pp with
  | error e => rw [hY] at h; exact Except.noConfusion h
  | ok r0 =>
    rw [hY] at h
    have hG0 := stageYolo_good C image_bytes pp r0 hY
    cases r0 with
    | inl a =>
      rw [← Except.ok.inj h]
      exact hG0
    | inr st0 =>
      simp only [] at h
      cases hF : stageFast C image_bytes pp elapsed st0 with
      | error e => rw [hF] at h; exact Except.noConfusion h
      | ok r1 =>
        rw [hF] at h
        have hG1 := stageFast_good C image_bytes pp elapsed st0 r1 hG0 hF
        cases r1 with
        | inl a =>
          rw [← Except.ok.inj h]
          exact hG1
        | inr st1 =>
          simp only [] at h
          cases hM : stageMedium C image_bytes pp elapsed st1 with
          | error e => rw [hM] at h; exact Except.noConfusion h
          | ok r2 =>
            rw [hM] at h
            have hG2 := stageMedium_good C image_bytes pp elapsed st1 r2 hG1 hM
            cases r2 with
            | inl a =>
              rw [← Except.ok.inj h]
              exact hG2
            | inr st2 =>
              simp only [] at h
              cases hU : stageFull C image_bytes pp elapsed st2 with
              | error e => rw [hU] at h; exact Except.noConfusion h
              | ok r3 =>
                rw [hU] at h
                have hG3 := stageFull_good C image_bytes pp elapsed st2 r3 hG2 hU
                cases r3 with
                | inl a =>
                  rw [← Except.ok.inj h]
                  exact hG3
                | inr st3 =>
                  simp only [] at h
                  cases hMC : stageMergeCheck pp elapsed st3 with
                  | inl a =>
                    rw [hMC] at h
                    have hGa : GoodStep (Sum.inl a) :=
                      stageMergeCheck_good pp elapsed st3 _ hG3 hMC
                    rw [← Except.ok.inj h]
                    exact hGa
                  | inr st4 =>
                    rw [hMC] at h
                    simp only [] at h
                    have hG4 : GoodState st4 :=
                      stageMergeCheck_good pp elapsed st3 _ hG3 hMC
                    have hG5 : GoodState (stageFallback C image_bytes pp st4) :=
                      stageFallback_good C image_bytes pp st4 hG4
                    rw [← Except.ok.inj h]
                    exact goodAnswer_merge hG5

/-- C8 witness: on the one-point collaborator with an empty engine report
and default parameters, the controller runs all stages and the invariant
is checked on the empty stage list of the trace. -/
theorem C8_controller_dominates_stages_witness :
    progressive_process (constCollab (some ()) []) [] {} (fun _ => 0) =
      Except.ok ([], [[], [], [], [], [], [], []]) ∧
    ([] : List Hit).length ≤ ([] : List Hit).length := by
  have h : progressive_process (constCollab (some ()) []) [] {} (fun _ => 0) =
      Except.ok (([] : List Hit), ([[], [], [], [], [], [], []] : List (List Hit))) := by
    rfl
  refine ⟨h, C8_controller_dominates_stages (constCollab (some ()) []) [] {}
    (fun _ => 0) ([], [[], [], [], [], [], [], []]) h [] ?_⟩
  decide

/-! ### Zero time budget (C9) -/

theorem addStage_tIdx (st : PState) (l : List Hit) : (addStage st l).tIdx = st.tIdx :=
  rfl

theorem runYoloCrops_tIdx {PImg : Type} (C : Collab PImg) (minc early : ℚ) :
    ∀ (crops : List PImg) (st st' : PState),
      runYoloCrops C minc early crops st = Except.ok st' → st'.tIdx = st.tIdx := by
  intro crops
  induction crops with
  | nil =>
    intro st st' h
    unfold runYoloCrops at h
    rw [← Except.ok.inj h]
  | cons crop rest ih =>
    intro st st' h
    unfold runYoloCrops at h
    cases hE : extract_serials_improved C (C.encodeCrop crop) (yoloCropParams minc early) with
    | error e => rw [hE] at h; exact Except.noConfusion h
    | ok l =>
      rw [hE] at h
      have h' : runYoloCrops C minc early rest (addStage st l) = Except.ok st' := h
      have h2 := ih (addStage st l) st' h'
      exact h2

theorem stageYolo_inr_tIdx {PImg : Type} (C : Collab PImg) (b : Bytes)
    (pp : ProgParams) (st : PState)
    (h : stageYolo C b pp = Except.ok (Sum.inr st)) : st.tIdx = 0 := by
  unfold stageYolo at h
  simp only [] at h
  cases hR : runYoloCrops C pp.min_confidence pp.early_stop_confidence
      (if pp.use_yolo_roi then C.yoloDetect b else []) ⟨[], [], 0⟩ with
  | error e => rw [hR] at h; exact Except.noConfusion h
  | ok st0 =>
    rw [hR] at h
    simp only [] at h
    split at h
    · exact Sum.noConfusion (Except.ok.inj h)
    · rw [← Sum.inr.inj (Except.ok.inj h)]
      exact runYoloCrops_tIdx C _ _ _ ⟨[], [], 0⟩ st0 hR

theorem stageFast_zero_budget {PImg : Type} (C : Collab PImg) (b : Bytes)
    (pp : ProgParams) (elapsed : Nat → ℚ) (st : PState) (r : Answer ⊕ PState)
    (hT : pp.max_processing_time = 0) (hel : 0 < elapsed st.tIdx)
    (h : stageFast C b pp elapsed st = Except.ok r) :
    ∃ a, r = Sum.inl a := by
  unfold stageFast at h
  cases hE : extract_serials_improved C b
      (stage1Params pp.min_confidence pp.early_stop_confidence) with
  | error e => rw [hE] at h; exact Except.noConfusion h
  | ok l1 =>
    rw [hE] at h
    simp only [] at h
    split at h
    · exact ⟨_, (Except.ok.inj h).symm⟩
    · have hcond : pp.max_processing_time * (4 / 10) < elapsed (addStage st l1).tIdx := by
        rw [addStage_tIdx, hT]
        simpa using hel
      rw [if_pos hcond] at h
      exact ⟨_, (Except.ok.inj h).symm⟩

theorem extract_ok_of_decode {PImg : Type} (C : Collab PImg) (b : Bytes)
    (p : ImprovedParams) (img : PImg) (h : C.decode b = some img) :
    ∃ l, extract_serials_improved C b p = Except.ok l := by
  unfold extract_serials_improved preprocess_image
  rw [h]
  exact ⟨_, rfl⟩

theorem runYoloCrops_ok {PImg : Type} (C : Collab PImg) (minc early : ℚ) :
    ∀ (crops : List PImg) (st : PState),
      (∀ crop ∈ crops, ∃ img2, C.decode (C.encodeCrop crop) = some img2) →
      ∃ st', runYoloCrops C minc early crops st = Except.ok st' := by
  intro crops
  induction crops with
  | nil => intro st _; exact ⟨st, rfl⟩
  | cons crop rest ih =>
    intro st hdec
    obtain ⟨img2, h2⟩ := hdec crop (List.mem_cons_self crop rest)
    obtain ⟨l, hl⟩ := extract_ok_of_decode C (C.encodeCrop crop)
      (yoloCropParams minc early) img2 h2
    unfold runYoloCrops
    rw [hl]
    exact ih _ (fun c hc => hdec c (List.mem_cons_of_mem _ hc))

/-- C9: with a zero `max_processing_time` and any positive elapsed time at
the first timeout check, the progressive controller returns after at most
the first stage's work — it coincides with the stage-1-only view, never
reaching stage 2, 3, or the fallback stage — and, whenever the image and
every YOLO crop decode, it returns a candidate list and no error. -/
theorem C9_zero_budget_single_stage {PImg : Type} (C : Collab PImg)
    (image_bytes : Bytes) (pp : ProgParams) (elapsed : Nat → ℚ)
    (hT : pp.max_processing_time = 0) (hel : 0 < elapsed 0) :
    progressive_process C image_bytes pp elapsed
      = progressive_stage1_only C image_bytes pp elapsed ∧
    (∀ img, C.decode image_bytes = some img →
      (∀ crop ∈ (if pp.use_yolo_roi then C.yoloDetect image_bytes else []),
        ∃ img2, C.decode (C.encodeCrop crop) = some img2) →
      ∃ ans, progressive_process C image_bytes pp elapsed = Except.ok ans) := by
  have hEq : progressive_process C image_bytes pp elapsed
      = progressive_stage1_only C image_bytes pp elapsed := by
    unfold progressive_process progressive_stage1_only
    cases hY : stageYolo C image_bytes pp with
    | error e => rfl
    | ok r0 =>
      cases r0 with
      | inl a => rfl
      | inr st0 =>
        have ht0 : st0.tIdx = 0 := stageYolo_inr_tIdx C image_bytes pp st0 hY
        simp only []
        cases hF : stageFast C image_bytes pp elapsed st0 with
        | error e => rfl
        | ok r1 =>
          obtain ⟨a, ha⟩ := stageFast_zero_budget C image_bytes pp elapsed st0 r1
            hT (by rw [ht0]; exact hel) hF
          rw [ha]
  refine ⟨hEq, ?_⟩
  intro img hdec hcrops
  rw [hEq]
  unfold progressive_stage1_only
  have hYok : ∃ r0, stageYolo C image_bytes pp = Except.ok r0 := by
    unfold stageYolo
    simp only []
    obtain ⟨st', hR⟩ := runYoloCrops_ok C pp.min_confidence pp.early_stop_confidence
      (if pp.use_yolo_roi then C.yoloDetect image_bytes else []) ⟨[], [], 0⟩ hcrops
    rw [hR]
    simp only []
    split
    · exact ⟨_, rfl⟩
    · exact ⟨_, rfl⟩
  obtain ⟨r0, hY⟩ := hYok
  rw [hY]
  cases r0 with
  | inl a => exact ⟨a, rfl⟩
  | inr st0 =>
    obtain ⟨l1, hE⟩ := extract_ok_of_decode C image_bytes
      (stage1Params pp.min_confidence pp.early_stop_confidence) img hdec
    have hFok : ∃ r1, stageFast C image_bytes pp elapsed st0 = Except.ok r1 := by
      unfold stageFast
      rw [hE]
      simp only []
      split
      · exact ⟨_, rfl⟩
      · split
        · exact ⟨_, rfl⟩
        · exact ⟨_, rfl⟩
    obtain ⟨r1, hF⟩ := hFok
    simp only []
    rw [hF]
    cases r1 with
    | inl a => exact ⟨a, rfl⟩
    | inr st1 => exact ⟨_, rfl⟩

/-- C9 witness: zero budget, unit elapsed time, decodable input. -/
theorem C9_zero_budget_single_stage_witness :
    progressive_process (constCollab (some ()) []) []
        { max_processing_time := 0 } (fun _ => 1)
      = progressive_stage1_only (constCollab (some ()) []) []
        { max_processing_time := 0 } (fun _ => 1) ∧
    (∃ ans, progressive_process (constCollab (some ()) []) []
        { max_processing_time := 0 } (fun _ => 1) = Except.ok ans) := by
  have h := C9_zero_budget_single_stage (constCollab (some ()) []) []
    { max_processing_time := 0 } (fun _ => 1) rfl (by decide)
  refine ⟨h.1, h.2 () rfl ?_⟩
  intro crop hc
  exact absurd hc (by cases crop; decide)

end SerialOCR
